import Mathlib

/-!
Verification of the MongoDB-backed storage layer of the opencode fork
(`packages/opencode/src/storage/mongo.ts`, updated version, together with the
`McpAuth` facade in `packages/opencode/src/mcp/auth.ts`).

The embedding is shallow and executable:

* BSON / JSON values are modelled by `Value`.  Arrays are not needed by any
  claim and payloads are opaque to the storage layer, so the value universe
  has objects but no array constructor.
* A MongoDB document is an association list of fields (`Doc`), a collection a
  list of documents (`Coll`), and the database an association list from
  collection names to collections (`Store`).
* The driver operations used by the source (`findOne`, `find`, `updateOne`
  with `$set` / `$setOnInsert` / `$inc` and optional upsert) are modelled as
  pure functions; `updateOne` acts on the first matching document, and an
  upsert seeds the new document from the equality fields of the filter, as
  MongoDB does.
* `new Date()` is modelled by an explicit `now : Nat` argument, and the
  process clock / environment interference is passed in explicitly.
-/

/-- The universe of JavaScript/BSON values handled by the storage layer.
`vUndef` is JavaScript `undefined` (never stored, but produced by reading a
missing property); `vDate t` models a `Date` by its timestamp.  Payloads are
opaque to the storage layer, so objects (`vObj`) suffice as structured data
and arrays are omitted. -/
inductive Value where
  | vNull
  | vUndef
  | vBool (b : Bool)
  | vNum (n : Int)
  | vStr (s : String)
  | vDate (t : Nat)
  | vObj (fields : List (String × Value))

/-- Equality test used when matching query filters against document fields.
Every filter built by the embedded module carries only scalar values
(strings, numbers, null), so object comparison — which MongoDB performs
structurally — is modelled conservatively and never exercised. -/
def Value.beq : Value → Value → Bool
  | .vNull, .vNull => true
  | .vUndef, .vUndef => true
  | .vBool a, .vBool b => a == b
  | .vNum a, .vNum b => a == b
  | .vStr a, .vStr b => a == b
  | .vDate a, .vDate b => a == b
  | _, _ => false

/-- JavaScript truthiness: `false`, `0`, the empty string, `null` and
`undefined` are falsy; every other value (including any object) is truthy. -/
def Value.truthy : Value → Bool
  | .vNull => false
  | .vUndef => false
  | .vBool b => b
  | .vNum n => n != 0
  | .vStr s => s != ""
  | .vDate _ => true
  | .vObj _ => true

/-- JavaScript `a || b`. -/
def jsOr (a b : Value) : Value := if a.truthy then a else b

/-- JavaScript `String(v)` on the values this module can reach.  Numbers
print in decimal, objects print as `[object Object]`; `Date` printing is
approximated by its timestamp (no operation of the module stringifies a
date). -/
def Value.jsToString : Value → String
  | .vNull => "null"
  | .vUndef => "undefined"
  | .vBool b => cond b "true" "false"
  | .vNum n => toString n
  | .vStr s => s
  | .vDate t => toString t
  | .vObj _ => "[object Object]"

/-- A BSON document: an association list of named fields (first occurrence
of a name wins, as for JavaScript object properties). -/
abbrev Doc := List (String × Value)

/-- A collection: the documents it holds, in insertion order. -/
abbrev Coll := List Doc

/-- The database: collections by name. -/
abbrev Store := List (String × Coll)

/-- An equality filter, as used by every query the module issues. -/
abbrev Query := List (String × Value)

/-- Field lookup in an association list of values. -/
def assocGet : List (String × Value) → String → Option Value
  | [], _ => none
  | (g, w) :: rest, f => if g = f then some w else assocGet rest f

/-- Set a field: replace its first occurrence, or append it. -/
def assocSet : List (String × Value) → String → Value → List (String × Value)
  | [], f, v => [(f, v)]
  | (g, w) :: rest, f, v =>
    if g = f then (f, v) :: rest else (g, w) :: assocSet rest f v

/-- Remove a field entirely (MongoDB `$unset` / JavaScript `delete`). -/
def assocRemove : List (String × Value) → String → List (String × Value)
  | [], _ => []
  | (g, w) :: rest, f =>
    if g = f then assocRemove rest f else (g, w) :: assocRemove rest f

/-- Reading a property in JavaScript: a missing field yields `undefined`. -/
def jsGet (d : Doc) (f : String) : Value := (assocGet d f).getD Value.vUndef

/-- Whether a document field satisfies one equality constraint.  A filter
value `null` also matches a missing field, as in MongoDB (and `undefined`
filter values are serialized as `null` by the driver before this point). -/
def fieldMatches : Option Value → Value → Bool
  | some v, q => Value.beq v q
  | none, q => Value.beq q Value.vNull

/-- Whether a document matches every constraint of a filter. -/
def docMatches (d : Doc) (φ : Query) : Bool :=
  φ.all fun p => fieldMatches (assocGet d p.1) p.2

/-- Apply a `$set` clause: the fields are written left to right, so a later
entry overwrites an earlier one of the same name, as in a JavaScript object
literal with repeated keys. -/
def applySet (d : Doc) : List (String × Value) → Doc
  | [] => d
  | (f, v) :: rest => applySet (assocSet d f v) rest

/-- Apply one `$inc` entry.  On a missing field MongoDB creates it with the
increment; on a non-numeric field MongoDB raises a write error — that case is
modelled as creating the field and is unreachable for the well-versioned
stores every theorem below works with. -/
def applyInc1 (d : Doc) (f : String) (k : Int) : Doc :=
  match assocGet d f with
  | some (Value.vNum n) => assocSet d f (Value.vNum (n + k))
  | some _ => assocSet d f (Value.vNum k)
  | none => assocSet d f (Value.vNum k)

/-- Apply a `$inc` clause. -/
def applyInc (d : Doc) : List (String × Int) → Doc
  | [] => d
  | (f, k) :: rest => applyInc (applyInc1 d f k) rest

/-- The modification an `updateOne` applies to a matched document. -/
def applyUpd (d : Doc) (setL : List (String × Value)) (incL : List (String × Int)) : Doc :=
  applyInc (applySet d setL) incL

/-- The document MongoDB creates on an upsert: seeded from the equality
fields of the filter, then the `$set`, `$setOnInsert` and `$inc` clauses. -/
def buildUpsertDoc (φ : Query) (setL soiL : List (String × Value))
    (incL : List (String × Int)) : Doc :=
  applyInc (applySet (applySet (applySet [] φ) setL) soiL) incL

/-- Core of `updateOne`: modify the first matching document, returning the
new collection and the matched count (0 or 1). -/
def updateOneGo (φ : Query) (setL : List (String × Value))
    (incL : List (String × Int)) : Coll → Coll × Nat
  | [] => ([], 0)
  | d :: rest =>
    if docMatches d φ then (applyUpd d setL incL :: rest, 1)
    else
      let r := updateOneGo φ setL incL rest
      (d :: r.1, r.2)

/-- Driver `updateOne(filter, {$set, $setOnInsert, $inc}, {upsert})`: returns
the new collection together with `matchedCount`.  With no match and no
upsert the collection is untouched; with upsert the new document is
appended. -/
def updateOne (c : Coll) (φ : Query) (setL soiL : List (String × Value))
    (incL : List (String × Int)) (upsert : Bool) : Coll × Nat :=
  let r := updateOneGo φ setL incL c
  if r.2 = 0 then
    if upsert then (c ++ [buildUpsertDoc φ setL soiL incL], 0) else (c, 0)
  else r

/-- Driver `findOne(filter)`: first matching document. -/
def findOne (c : Coll) (φ : Query) : Option Doc :=
  c.find? fun d => docMatches d φ

/-- Driver `find(filter).toArray()`: all matching documents in collection
order. -/
def findAll (c : Coll) (φ : Query) : Coll :=
  c.filter fun d => docMatches d φ

/-- Collection of a given name (an absent collection is empty). -/
def getColl (s : Store) (n : String) : Coll :=
  ((s.find? fun p => p.1 = n).map Prod.snd).getD []

/-- Replace one collection of the database. -/
def setColl : Store → String → Coll → Store
  | [], n, c => [(n, c)]
  | (m, cc) :: rest, n, c =>
    if m = n then (n, c) :: rest else (m, cc) :: setColl rest n c

/-! ### The JavaScript sort comparator

`Array.prototype.sort()` without arguments compares elements by their string
conversion, code unit by code unit, and is stable (ES2019).  A stable sort
into a total preorder is uniquely determined, so `List.insertionSort` with
the comparator below is an exact model of the result. -/

/-- Code-unit comparison of two character lists (a shorter list that is a
prefix of the other comes first). -/
def charListLeB : List Char → List Char → Bool
  | [], _ => true
  | _ :: _, [] => false
  | a :: as, b :: bs =>
    if a.toNat = b.toNat then charListLeB as bs else Nat.ble a.toNat b.toNat

/-- String comparison as performed by the default JavaScript sort
comparator.  JavaScript compares UTF-16 code units and Lean characters are
Unicode scalar values; the two orders agree on every string this module
produces (the mismatch needs code points above U+FFFF). -/
def strLeB (a b : String) : Bool := charListLeB a.data b.data

theorem charListLeB_total : ∀ xs ys, charListLeB xs ys = true ∨ charListLeB ys xs = true := by
  intro xs
  induction xs with
  | nil => intro ys; left; rfl
  | cons x xs ih =>
    intro ys
    cases ys with
    | nil => right; rfl
    | cons y ys =>
      simp only [charListLeB]
      by_cases h : x.toNat = y.toNat
      · simp only [h, if_pos rfl, if_pos h.symm]
        simpa using ih ys
      · have h2 : y.toNat ≠ x.toNat := fun e => h e.symm
        simp only [if_neg h, if_neg h2]
        rcases Nat.le_total x.toNat y.toNat with hle | hle
        · left; simpa [Nat.ble_eq] using hle
        · right; simpa [Nat.ble_eq] using hle

theorem charListLeB_trans :
    ∀ xs ys zs, charListLeB xs ys = true → charListLeB ys zs = true →
      charListLeB xs zs = true := by
  intro xs
  induction xs with
  | nil => intro ys zs _ _; rfl
  | cons x xs ih =>
    intro ys zs hxy hyz
    cases ys with
    | nil => simp [charListLeB] at hxy
    | cons y ys =>
      cases zs with
      | nil => simp [charListLeB] at hyz
      | cons z zs =>
        simp only [charListLeB] at hxy hyz ⊢
        by_cases hxz : x.toNat = z.toNat
        · simp only [if_pos hxz]
          by_cases h1 : x.toNat = y.toNat
          · have h2 : y.toNat = z.toNat := by omega
            simp only [if_pos h1] at hxy
            simp only [if_pos h2] at hyz
            exact ih ys zs hxy hyz
          · simp only [if_neg h1, Nat.ble_eq] at hxy
            by_cases h2 : y.toNat = z.toNat
            · omega
            · simp only [if_neg h2, Nat.ble_eq] at hyz
              omega
        · simp only [if_neg hxz, Nat.ble_eq]
          by_cases h1 : x.toNat = y.toNat
          · by_cases h2 : y.toNat = z.toNat
            · omega
            · simp only [if_neg h2, Nat.ble_eq] at hyz
              omega
          · simp only [if_neg h1, Nat.ble_eq] at hxy
            by_cases h2 : y.toNat = z.toNat
            · omega
            · simp only [if_neg h2, Nat.ble_eq] at hyz
              omega

/-! ### The `MongoStorage` module (updated version of `storage/mongo.ts`)

Data operations take the store, an explicit clock value `now` (for
`new Date()`), and return the new store.  The `await ensureInit()` guard at
the top of each operation is connection management, modelled separately by
the `InitState` machine below, and does not touch the data.  A thrown
`ENOENT` ("Resource not found") error is modelled by `Option` / an explicit
result constructor.  A hierarchical key `[type, ...ids]` is passed as the
entity type together with its id segments (the key model makes keys
non-empty with the type first). -/

namespace MongoStorage

/-- Collection name mapping from hierarchical keys (`COLLECTION_MAP`). -/
def COLLECTION_MAP : List (String × String) :=
  [("session", "sessions"), ("message", "messages"), ("part", "parts"),
   ("project", "projects"), ("share", "shares"), ("session_diff", "session_diffs")]

/-- `COLLECTION_MAP[type] || type`: unmapped types fall back to the type
name itself. -/
def collectionName (ty : String) : String :=
  (COLLECTION_MAP.lookup ty).getD ty

/-- TypeScript `ids[i]` inside a query object: past the end it is
`undefined`, which the driver serializes as `null`. -/
def jsIdx (ids : List String) (i : Nat) : Value :=
  match ids.get? i with
  | some s => Value.vStr s
  | none => Value.vNull

/-- `buildQuery(type, ids)`: the per-type equality filter. -/
def buildQuery (ty : String) (ids : List String) : Query :=
  match ty with
  | "session" =>
    if ids.length = 2 then [("projectId", jsIdx ids 0), ("sessionId", jsIdx ids 1)]
    else [("projectId", jsIdx ids 0)]
  | "message" =>
    if ids.length = 2 then [("sessionId", jsIdx ids 0), ("messageId", jsIdx ids 1)]
    else [("sessionId", jsIdx ids 0)]
  | "part" =>
    if ids.length = 2 then [("messageId", jsIdx ids 0), ("partId", jsIdx ids 1)]
    else [("messageId", jsIdx ids 0)]
  | "project" => [("projectId", jsIdx ids 0)]
  | "share" => [("shareId", jsIdx ids 0)]
  | "session_diff" => [("sessionId", jsIdx ids 0)]
  | _ => [("_id", Value.vStr (String.intercalate "/" ids))]

/-- `buildDocId(type, ids)`: the `/`-joined id segments (the type argument
is unused in the source as well). -/
def buildDocId (_ty : String) (ids : List String) : String :=
  String.intercalate "/" ids

/-- `extractKey(type, doc)`: recover the hierarchical key of a document.
The produced segments are whatever the document holds (`undefined` for a
missing field), as in the TypeScript. -/
def extractKey (ty : String) (d : Doc) : List Value :=
  match ty with
  | "session" => [Value.vStr ty, jsGet d "projectId", jsGet d "sessionId"]
  | "message" => [Value.vStr ty, jsGet d "sessionId", jsGet d "messageId"]
  | "part" => [Value.vStr ty, jsGet d "messageId", jsGet d "partId"]
  | "project" => [Value.vStr ty, jsGet d "projectId"]
  | "share" => [Value.vStr ty, jsGet d "shareId"]
  | "session_diff" => [Value.vStr ty, jsGet d "sessionId"]
  | _ =>
    Value.vStr ty ::
      (match assocGet d "_id" with
       | none => []
       | some Value.vNull => []
       | some Value.vUndef => []
       | some v => (v.jsToString.splitOn "/").map Value.vStr)

/-- The query used by the by-id paths (`{_id: docId}`). -/
def idQuery (ty : String) (ids : List String) : Query :=
  [("_id", Value.vStr (buildDocId ty ids))]

/-- `read(key)`: look up by document id and return the `data` field;
`none` models the thrown `ENOENT` NotFound error. -/
def read (s : Store) (ty : String) (ids : List String) : Option Value :=
  (findOne (getColl s (collectionName ty)) (idQuery ty ids)).map fun d => jsGet d "data"

/-- `write(key, content)`: upsert by document id, `$set`-ting the filter
fields, the id, the payload and the timestamp, with
`$setOnInsert: {version: 1}`. -/
def write (s : Store) (ty : String) (ids : List String) (content : Value) (now : Nat) : Store :=
  let cn := collectionName ty
  let docId := buildDocId ty ids
  let r := updateOne (getColl s cn) [("_id", Value.vStr docId)]
    (buildQuery ty ids ++
      [("_id", Value.vStr docId), ("data", content), ("updatedAt", Value.vDate now)])
    [("version", Value.vNum 1)] [] true
  setColl s cn r.1

/-- The retry budget of `update` (`maxRetries`). -/
def maxRetries : Nat := 3

/-- Result of `update`: the thrown NotFound error, the thrown
concurrency-conflict error after an exhausted retry budget, or the mutated
payload. -/
inductive UpdResult where
  | notFound
  | conflict
  | ok (v : Value)

/-- Interference by other writers sharing the database: one function applied
between the fetch and the conditional write of an attempt, one applied after
a failed conditional write, before the next fetch. -/
abbrev Interference := (Store → Store) × (Store → Store)

/-- The single conditional write of the optimistic-concurrency protocol:
match by document id and current version, `$set` the new payload and
timestamp, `$inc` the version by 1, no upsert. -/
def condWrite (c : Coll) (docId : String) (ver : Value) (payload : Value) (now : Nat) :
    Coll × Nat :=
  updateOne c [("_id", Value.vStr docId), ("version", ver)]
    [("data", payload), ("updatedAt", Value.vDate now)] [] [("version", 1)] false

/-- The retry loop of `update`, one list entry per remaining attempt.  Each
attempt fetches the current document by id (NotFound if absent), applies the
mutate function to a deep clone of the payload — in this pure embedding,
applies `fn` to the payload — and attempts the conditional write with
`doc.version || 0`; a matched count of 1 returns the mutated payload, a
zero-match retries, and an empty attempt list is the exhausted retry budget
(the thrown concurrency-conflict error). -/
def updateAttempts (cn docId : String) (fn : Value → Value) (now : Nat) :
    List Interference → Store → UpdResult × Store
  | [], s => (UpdResult.conflict, s)
  | op :: rest, s =>
    match findOne (getColl s cn) [("_id", Value.vStr docId)] with
    | none => (UpdResult.notFound, s)
    | some doc =>
      let content := fn (jsGet doc "data")
      let currentVersion := jsOr (jsGet doc "version") (Value.vNum 0)
      let s1 := op.1 s
      let wr := condWrite (getColl s1 cn) docId currentVersion content now
      let s2 := setColl s1 cn wr.1
      if wr.2 = 1 then (UpdResult.ok content, s2)
      else updateAttempts cn docId fn now rest (op.2 s2)

/-- `update(key, fn)`: the optimistic-concurrency update, run for exactly
`maxRetries = 3` attempts against an environment that may interfere through
`o1`, `o2`, `o3`. -/
def update (ty : String) (ids : List String) (fn : Value → Value) (now : Nat)
    (o1 o2 o3 : Interference) (s : Store) : UpdResult × Store :=
  updateAttempts (collectionName ty) (buildDocId ty ids) fn now [o1, o2, o3] s

/-- String conversion of one recovered key segment inside
`Array.prototype.toString`: `null` and `undefined` become empty. -/
def jsKeyPart : Value → String
  | Value.vNull => ""
  | Value.vUndef => ""
  | v => v.jsToString

/-- `String(key)` for a recovered key: the segments joined by commas. -/
def jsKeyString (k : List Value) : String :=
  String.intercalate "," (k.map jsKeyPart)

/-- The order the parameterless JavaScript `sort()` puts recovered keys in:
by their string conversion, code unit by code unit. -/
def keyLe (k1 k2 : List Value) : Prop :=
  strLeB (jsKeyString k1) (jsKeyString k2) = true

instance : DecidableRel keyLe := fun k1 k2 =>
  inferInstanceAs (Decidable (strLeB (jsKeyString k1) (jsKeyString k2) = true))

instance : IsTotal (List Value) keyLe where
  total := fun k1 k2 => charListLeB_total (jsKeyString k1).data (jsKeyString k2).data

instance : IsTrans (List Value) keyLe where
  trans := fun k1 k2 k3 h1 h2 =>
    charListLeB_trans (jsKeyString k1).data (jsKeyString k2).data (jsKeyString k3).data h1 h2

/-- The order of the driver-side `.sort({_id: 1})` cursor: by the `_id`
field.  For the string ids this module writes, BSON compares bytewise, which
agrees with the code-unit order. -/
def docIdLe (d1 d2 : Doc) : Prop :=
  strLeB (jsGet d1 "_id").jsToString (jsGet d2 "_id").jsToString = true

instance : DecidableRel docIdLe := fun d1 d2 =>
  inferInstanceAs (Decidable (_ = true))

instance : IsTotal Doc docIdLe where
  total := fun d1 d2 =>
    charListLeB_total (jsGet d1 "_id").jsToString.data (jsGet d2 "_id").jsToString.data

instance : IsTrans Doc docIdLe where
  trans := fun d1 d2 d3 h1 h2 =>
    charListLeB_trans (jsGet d1 "_id").jsToString.data (jsGet d2 "_id").jsToString.data
      (jsGet d3 "_id").jsToString.data h1 h2

/-- `list(prefix)`: query by however many ids are given (no ids matches the
whole collection), fetch through the `.sort({_id: 1})` cursor, recover the
keys, and sort the result (`result.sort()`).  Both sorts are stable, so
`List.insertionSort` reproduces them exactly. -/
def list (s : Store) (ty : String) (ids : List String) : List (List Value) :=
  let q := if ids.length > 0 then buildQuery ty ids else []
  let docs := List.insertionSort docIdLe (findAll (getColl s (collectionName ty)) q)
  List.insertionSort keyLe (docs.map (extractKey ty))

end MongoStorage

namespace MongoStorage

/-- `authSet(providerId, data)`: upsert the auth entry keyed by provider. -/
def authSet (s : Store) (providerId : String) (data : Value) (now : Nat) : Store :=
  setColl s "auth"
    (updateOne (getColl s "auth") [("providerId", Value.vStr providerId)]
      [("providerId", Value.vStr providerId), ("data", data), ("updatedAt", Value.vDate now)]
      [] [] true).1

/-- `authGet(providerId)`. -/
def authGet (s : Store) (providerId : String) : Option Value :=
  (findOne (getColl s "auth") [("providerId", Value.vStr providerId)]).map fun d =>
    jsGet d "data"

/-- `authAll()`: reduce over all documents of the `auth` collection, keeping
an entry only when both `doc.providerId` and `doc.data` are truthy
(`if (doc.providerId && doc.data)`); insertion into the accumulator object
follows JavaScript property-assignment semantics. -/
def authAll (s : Store) : List (String × Value) :=
  (getColl s "auth").foldl
    (fun acc d =>
      if (jsGet d "providerId").truthy && (jsGet d "data").truthy then
        assocSet acc (jsGet d "providerId").jsToString (jsGet d "data")
      else acc)
    []

/-- `mcpAuthSet(mcpName, data)`. -/
def mcpAuthSet (s : Store) (mcpName : String) (data : Value) (now : Nat) : Store :=
  setColl s "mcp_auth"
    (updateOne (getColl s "mcp_auth") [("mcpName", Value.vStr mcpName)]
      [("mcpName", Value.vStr mcpName), ("data", data), ("updatedAt", Value.vDate now)]
      [] [] true).1

/-- `mcpAuthGet(mcpName)`. -/
def mcpAuthGet (s : Store) (mcpName : String) : Option Value :=
  (findOne (getColl s "mcp_auth") [("mcpName", Value.vStr mcpName)]).map fun d =>
    jsGet d "data"

/-- `mcpAuthAll()`: same filtering reduce as `authAll`, keyed by
`doc.mcpName`. -/
def mcpAuthAll (s : Store) : List (String × Value) :=
  (getColl s "mcp_auth").foldl
    (fun acc d =>
      if (jsGet d "mcpName").truthy && (jsGet d "data").truthy then
        assocSet acc (jsGet d "mcpName").jsToString (jsGet d "data")
      else acc)
    []

/-- `configGet()`: return `doc?.data` of the default config document —
only the payload, never the document itself. -/
def configGet (s : Store) : Value :=
  match findOne (getColl s "config") [("_id", Value.vStr "default")] with
  | none => Value.vUndef
  | some d => jsGet d "data"

/-- `configSet(config)`: upsert the default config document, `$set`-ting
only the `data` payload and the timestamp. -/
def configSet (s : Store) (config : Value) (now : Nat) : Store :=
  setColl s "config"
    (updateOne (getColl s "config") [("_id", Value.vStr "default")]
      [("data", config), ("updatedAt", Value.vDate now)] [] [] true).1

/-- The filesystem contents seen by `importFromFilesystem`: per entity type
the JSON files under `storage/<type>` (key segments from the relative path,
and `none` for a file whose JSON fails to parse — such files are logged and
skipped, not fatal), the parsed `auth.json` and `mcp-auth.json` maps when
those files exist, and the parse results of the two candidate config
paths, in order. -/
structure FsData where
  files : String → List (List String × Option Value)
  authJson : Option (List (String × Value))
  mcpAuthJson : Option (List (String × Value))
  configCandidates : List (Option Value)

/-- `importDirectory(dir, type, collName)`: write every parseable JSON file
under the type directory through `write` (the collection-name argument is
unused in the source as well). -/
def importDirectory (s : Store) (ty : String)
    (files : List (List String × Option Value)) (now : Nat) : Store :=
  files.foldl
    (fun acc f =>
      match f.2 with
      | none => acc
      | some content => write acc ty f.1 content now)
    s

/-- The sentinel query of the import marker. -/
def markerQuery : Query := [("_id", Value.vStr "filesystem_imported")]

/-- `importFromFilesystem(dataDir)`: return immediately when the sentinel
marker document exists; otherwise import the storage directories, the auth
and MCP-auth maps, the first parseable config candidate, and finally upsert
the marker. -/
def importFromFilesystem (fsd : FsData) (now : Nat) (s : Store) : Store :=
  match findOne (getColl s "_meta") markerQuery with
  | some _ => s
  | none =>
    let s1 := COLLECTION_MAP.foldl
      (fun acc p => importDirectory acc p.1 (fsd.files p.1) now) s
    let s2 := match fsd.authJson with
      | none => s1
      | some entries => entries.foldl (fun acc e => authSet acc e.1 e.2 now) s1
    let s3 := match fsd.mcpAuthJson with
      | none => s2
      | some entries => entries.foldl (fun acc e => mcpAuthSet acc e.1 e.2 now) s2
    let s4 := match fsd.configCandidates.findSome? id with
      | none => s3
      | some c => configSet s3 c now
    setColl s4 "_meta"
      (updateOne (getColl s4 "_meta") markerQuery
        [("_id", Value.vStr "filesystem_imported"), ("importedAt", Value.vDate now)]
        [] [] true).1

/-- The module-level connection state relevant to `init`: the memoized
in-flight promise (identified by a number) and how many connection attempts
(`doInit` runs, each opening one `MongoClient`) have been made. -/
structure InitState where
  initPromise : Option Nat
  connectAttempts : Nat

/-- The state before the first storage operation. -/
def startState : InitState := InitState.mk none 0

/-- `init()`: return the memoized promise when there is one, otherwise start
`doInit()` and memoize its promise.  The null-check and the assignment are
a single step here because the source performs them synchronously, with no
`await` in between, so no other event-loop task can interleave. -/
def init (st : InitState) : InitState × Nat :=
  match st.initPromise with
  | some p => (st, p)
  | none => (InitState.mk (some st.connectAttempts) (st.connectAttempts + 1), st.connectAttempts)

/-- A sequence of `init()` calls (the first storage operations of racing
callers), collecting the promise each caller gets back. -/
def runInits : Nat → InitState → InitState × List Nat
  | 0, st => (st, [])
  | n + 1, st =>
    let r := init st
    let rest := runInits n r.1
    (rest.1, r.2 :: rest.2)

end MongoStorage

/-! ### The `McpAuth` facade (MongoDB branch of `mcp/auth.ts`)

`McpAuth.updateTokens`, `updateClientInfo`, `updateCodeVerifier` and
`clearCodeVerifier` delegate to `MongoStorage.mcpAuthUpdateField` and
`MongoStorage.mcpAuthUnsetField`, which the MongoStorage source does not
define; they are modelled from the spec below. -/

namespace MongoStorage

/-- Core of a targeted entry-field update: transform the first document
matching the filter; with no match, insert the transformed filter seed. -/
def updateFirstWith (φ : Query) (f : Doc → Doc) : Coll → Coll × Bool
  | [] => ([], false)
  | d :: rest =>
    if docMatches d φ then (f d :: rest, true)
    else
      let r := updateFirstWith φ f rest
      (d :: r.1, r.2)

/-- Set a single subfield of the entry payload stored under `data`
(MongoDB `$set` on the dotted path `data.<field>`): a missing or non-object
payload becomes an object holding just that field. -/
def setEntryField (d : Doc) (field : String) (v : Value) : Doc :=
  match assocGet d "data" with
  | some (Value.vObj fs) => assocSet d "data" (Value.vObj (assocSet fs field v))
  | _ => assocSet d "data" (Value.vObj [(field, v)])

/-- Remove a single subfield of the entry payload stored under `data`
(MongoDB `$unset` on the dotted path `data.<field>`). -/
def unsetEntryField (d : Doc) (field : String) : Doc :=
  match assocGet d "data" with
  | some (Value.vObj fs) => assocSet d "data" (Value.vObj (assocRemove fs field))
  | _ => d

/-- Modelled from the spec: `MongoStorage.mcpAuthUpdateField` is called by
the `McpAuth` partial-update operations but absent from the MongoStorage
source; per the spec the partial updates are "implemented as a targeted
field set/unset rather than a full-record replace", so this sets the one
subfield of the stored entry (upserting, like the sibling MCP-auth
operations) and refreshes the timestamp, leaving every other subfield as it
is. -/
def mcpAuthUpdateField (s : Store) (mcpName field : String) (v : Value) (now : Nat) : Store :=
  match updateFirstWith [("mcpName", Value.vStr mcpName)]
      (fun d => assocSet (setEntryField d field v) "updatedAt" (Value.vDate now))
      (getColl s "mcp_auth") with
  | (c2, true) => setColl s "mcp_auth" c2
  | (_, false) =>
    setColl s "mcp_auth"
      (getColl s "mcp_auth" ++
        [assocSet (setEntryField [("mcpName", Value.vStr mcpName)] field v)
          "updatedAt" (Value.vDate now)])

/-- Modelled from the spec: `MongoStorage.mcpAuthUnsetField`, the targeted
field unset of the spec's partial-update contract; with no stored entry it
is a no-op (no upsert), matching the filesystem branch of
`clearCodeVerifier`. -/
def mcpAuthUnsetField (s : Store) (mcpName field : String) (now : Nat) : Store :=
  match updateFirstWith [("mcpName", Value.vStr mcpName)]
      (fun d => assocSet (unsetEntryField d field) "updatedAt" (Value.vDate now))
      (getColl s "mcp_auth") with
  | (c2, true) => setColl s "mcp_auth" c2
  | (_, false) => s

/-- One subfield of the stored MCP-auth entry for a server name, as read
back through the document backend (`none` when there is no entry, no object
payload, or no such subfield). -/
def entryField (s : Store) (mcpName f : String) : Option Value :=
  match findOne (getColl s "mcp_auth") [("mcpName", Value.vStr mcpName)] with
  | none => none
  | some d =>
    match assocGet d "data" with
    | some (Value.vObj fs) => assocGet fs f
    | _ => none

end MongoStorage

namespace McpAuth

/-- `McpAuth.updateTokens` (MongoDB branch): a targeted set of the `tokens`
field. -/
def updateTokens (s : Store) (mcpName : String) (tokens : Value) (now : Nat) : Store :=
  MongoStorage.mcpAuthUpdateField s mcpName "tokens" tokens now

/-- `McpAuth.updateClientInfo` (MongoDB branch). -/
def updateClientInfo (s : Store) (mcpName : String) (clientInfo : Value) (now : Nat) : Store :=
  MongoStorage.mcpAuthUpdateField s mcpName "clientInfo" clientInfo now

/-- `McpAuth.updateCodeVerifier` (MongoDB branch). -/
def updateCodeVerifier (s : Store) (mcpName : String) (codeVerifier : Value) (now : Nat) : Store :=
  MongoStorage.mcpAuthUpdateField s mcpName "codeVerifier" codeVerifier now

/-- `McpAuth.clearCodeVerifier` (MongoDB branch): a targeted unset of the
`codeVerifier` field. -/
def clearCodeVerifier (s : Store) (mcpName : String) (now : Nat) : Store :=
  MongoStorage.mcpAuthUnsetField s mcpName "codeVerifier" now

end McpAuth

/-! ### Association-list and engine lemmas -/

theorem assocGet_assocSet_same (d : List (String × Value)) (f : String) (v : Value) :
    assocGet (assocSet d f v) f = some v := by
  induction d with
  | nil => simp [assocSet, assocGet]
  | cons p rest ih =>
    obtain ⟨g, w⟩ := p
    by_cases h : g = f
    · simp [assocSet, assocGet, h]
    · simp [assocSet, assocGet, h, ih]

theorem assocGet_assocSet_ne (d : List (String × Value)) (g f : String) (v : Value)
    (h : g ≠ f) : assocGet (assocSet d g v) f = assocGet d f := by
  induction d with
  | nil => simp [assocSet, assocGet, h]
  | cons p rest ih =>
    obtain ⟨g0, w⟩ := p
    by_cases h0 : g0 = g
    · simp [assocSet, assocGet, h0, h]
    · by_cases h1 : g0 = f
      · have hfg : ¬(f = g) := fun e => h e.symm
        simp [assocSet, assocGet, h0, h1, hfg]
      · simp [assocSet, assocGet, h0, h1, ih]

theorem assocGet_assocRemove_ne (d : List (String × Value)) (g f : String)
    (h : g ≠ f) : assocGet (assocRemove d g) f = assocGet d f := by
  induction d with
  | nil => simp [assocRemove]
  | cons p rest ih =>
    obtain ⟨g0, w⟩ := p
    by_cases h0 : g0 = g
    · subst h0
      simp [assocRemove, assocGet, h, ih]
    · by_cases h1 : g0 = f
      · have hfg : ¬(f = g) := fun e => h e.symm
        simp [assocRemove, assocGet, h0, h1, hfg]
      · simp [assocRemove, assocGet, h0, h1, ih]

theorem assocGet_assocRemove_same (d : List (String × Value)) (f : String) :
    assocGet (assocRemove d f) f = none := by
  induction d with
  | nil => rfl
  | cons p rest ih =>
    obtain ⟨g, w⟩ := p
    by_cases h : g = f
    · simp [assocRemove, h, ih]
    · simp [assocRemove, assocGet, h, ih]

theorem applySet_append (d : Doc) (l1 l2 : List (String × Value)) :
    applySet d (l1 ++ l2) = applySet (applySet d l1) l2 := by
  induction l1 generalizing d with
  | nil => simp [applySet]
  | cons p rest ih =>
    obtain ⟨f, v⟩ := p
    simp [applySet, ih]

theorem assocGet_applySet_not_key (d : Doc) (l : List (String × Value)) (f : String)
    (h : ∀ p ∈ l, p.1 ≠ f) : assocGet (applySet d l) f = assocGet d f := by
  induction l generalizing d with
  | nil => rfl
  | cons p rest ih =>
    obtain ⟨g, v⟩ := p
    have hg : g ≠ f := h (g, v) (by simp)
    have hrest : ∀ p ∈ rest, p.1 ≠ f := fun p hp => h p (by simp [hp])
    simp only [applySet]
    rw [ih (assocSet d g v) hrest, assocGet_assocSet_ne d g f v hg]

theorem assocGet_applyInc_not_key (d : Doc) (l : List (String × Int)) (f : String)
    (h : ∀ p ∈ l, p.1 ≠ f) : assocGet (applyInc d l) f = assocGet d f := by
  induction l generalizing d with
  | nil => rfl
  | cons p rest ih =>
    obtain ⟨g, k⟩ := p
    have hg : g ≠ f := h (g, k) (by simp)
    have hrest : ∀ p ∈ rest, p.1 ≠ f := fun p hp => h p (by simp [hp])
    simp only [applyInc]
    rw [ih _ hrest]
    unfold applyInc1
    cases assocGet d g with
    | none => exact assocGet_assocSet_ne d g f _ hg
    | some v =>
      cases v <;> exact assocGet_assocSet_ne d g f _ hg

theorem getColl_setColl_same (s : Store) (n : String) (c : Coll) :
    getColl (setColl s n c) n = c := by
  induction s with
  | nil => simp [setColl, getColl]
  | cons p rest ih =>
    obtain ⟨m, cc⟩ := p
    by_cases h : m = n
    · simp [setColl, getColl, h]
    · simp only [setColl, if_neg h]
      unfold getColl at ih ⊢
      simp only [List.find?]
      simp [h, ih]

theorem getColl_setColl_ne (s : Store) (n m : String) (c : Coll) (h : n ≠ m) :
    getColl (setColl s n c) m = getColl s m := by
  induction s with
  | nil => simp [setColl, getColl, h]
  | cons p rest ih =>
    obtain ⟨m0, cc⟩ := p
    by_cases h0 : m0 = n
    · have h1 : ¬(m0 = m) := fun e => h (h0.symm.trans e)
      simp only [setColl, if_pos h0]
      unfold getColl
      simp only [List.find?]
      simp [h, h1]
    · by_cases h1 : m0 = m
      · have hmn : ¬(m = n) := fun e => h e.symm
        simp [setColl, getColl, h0, h1, hmn]
      · simp only [setColl, if_neg h0]
        unfold getColl at ih ⊢
        simp only [List.find?]
        simp [h1, ih]

theorem findOne_eq_none_iff (c : Coll) (φ : Query) :
    findOne c φ = none ↔ ∀ d ∈ c, docMatches d φ = false := by
  unfold findOne
  rw [List.find?_eq_none]
  constructor
  · intro h d hd
    have := h d hd
    simpa using this
  · intro h d hd
    simp [h d hd]

theorem findOne_first (bs : Coll) (d : Doc) (as : Coll) (φ : Query)
    (hbs : ∀ e ∈ bs, docMatches e φ = false) (hd : docMatches d φ = true) :
    findOne (bs ++ d :: as) φ = some d := by
  induction bs with
  | nil => simp [findOne, List.find?, hd]
  | cons b rest ih =>
    have hb : docMatches b φ = false := hbs b (by simp)
    have hrest : ∀ e ∈ rest, docMatches e φ = false := fun e he => hbs e (by simp [he])
    simp only [List.cons_append, findOne, List.find?, hb]
    exact ih hrest

theorem findOne_some_decomp (c : Coll) (φ : Query) (d : Doc)
    (h : findOne c φ = some d) :
    ∃ bs as, c = bs ++ d :: as ∧ (∀ e ∈ bs, docMatches e φ = false) ∧
      docMatches d φ = true := by
  induction c with
  | nil => simp [findOne, List.find?] at h
  | cons b rest ih =>
    by_cases hb : docMatches b φ = true
    · have h2 : b = d := by
        simp only [findOne, List.find?, hb] at h
        exact Option.some.inj h
      subst h2
      exact ⟨[], rest, by simp, by simp, hb⟩
    · have hb0 : docMatches b φ = false := by simpa using hb
      simp only [findOne, List.find?, hb0] at h
      obtain ⟨bs, as, he, hbs, hd⟩ := ih h
      exact ⟨b :: bs, as, by simp [he], by
        intro e he2
        rcases List.mem_cons.mp he2 with h1 | h1
        · simp [h1, hb0]
        · exact hbs e h1, hd⟩

theorem updateOneGo_of_none (φ : Query) (setL : List (String × Value))
    (incL : List (String × Int)) (c : Coll)
    (h : ∀ d ∈ c, docMatches d φ = false) :
    updateOneGo φ setL incL c = (c, 0) := by
  induction c with
  | nil => rfl
  | cons b rest ih =>
    have hb : docMatches b φ = false := h b (by simp)
    have hrest : ∀ d ∈ rest, docMatches d φ = false := fun d hd => h d (by simp [hd])
    simp [updateOneGo, hb, ih hrest]

theorem updateOneGo_first (φ : Query) (setL : List (String × Value))
    (incL : List (String × Int)) (bs : Coll) (d : Doc) (as : Coll)
    (hbs : ∀ e ∈ bs, docMatches e φ = false) (hd : docMatches d φ = true) :
    updateOneGo φ setL incL (bs ++ d :: as) = (bs ++ applyUpd d setL incL :: as, 1) := by
  induction bs with
  | nil => simp [updateOneGo, hd]
  | cons b rest ih =>
    have hb : docMatches b φ = false := hbs b (by simp)
    have hrest : ∀ e ∈ rest, docMatches e φ = false := fun e he => hbs e (by simp [he])
    simp [updateOneGo, hb, ih hrest]

theorem updateOne_of_miss (c : Coll) (φ : Query) (setL soiL : List (String × Value))
    (incL : List (String × Int)) (h : findOne c φ = none) :
    updateOne c φ setL soiL incL true = (c ++ [buildUpsertDoc φ setL soiL incL], 0) := by
  have hall := (findOne_eq_none_iff c φ).mp h
  simp [updateOne, updateOneGo_of_none φ setL incL c hall]

theorem updateOne_of_miss_noUpsert (c : Coll) (φ : Query)
    (setL soiL : List (String × Value)) (incL : List (String × Int))
    (h : findOne c φ = none) :
    updateOne c φ setL soiL incL false = (c, 0) := by
  have hall := (findOne_eq_none_iff c φ).mp h
  simp [updateOne, updateOneGo_of_none φ setL incL c hall]

theorem updateOne_of_hit (c : Coll) (φ : Query) (setL soiL : List (String × Value))
    (incL : List (String × Int)) (upsert : Bool) (d : Doc)
    (h : findOne c φ = some d) :
    ∃ bs as, c = bs ++ d :: as ∧ (∀ e ∈ bs, docMatches e φ = false) ∧
      docMatches d φ = true ∧
      updateOne c φ setL soiL incL upsert = (bs ++ applyUpd d setL incL :: as, 1) := by
  obtain ⟨bs, as, he, hbs, hd⟩ := findOne_some_decomp c φ d h
  refine ⟨bs, as, he, hbs, hd, ?_⟩
  subst he
  simp [updateOne, updateOneGo_first φ setL incL bs d as hbs hd]

/-! ### Facts about the documents `write` produces -/

namespace MongoStorage

theorem buildQuery_fst_ne (ty : String) (ids : List String) :
    ((buildQuery ty ids).all fun p =>
      (p.1 != "version") && (p.1 != "data") && (p.1 != "updatedAt")) = true := by
  unfold buildQuery
  split <;> (try split) <;> rfl

theorem buildQuery_key_disj (ty : String) (ids : List String) :
    ∀ p ∈ buildQuery ty ids, p.1 ≠ "version" ∧ p.1 ≠ "data" ∧ p.1 ≠ "updatedAt" := by
  intro p hp
  have h := List.all_eq_true.mp (buildQuery_fst_ne ty ids) p hp
  simp only [Bool.and_eq_true, bne_iff_ne] at h
  exact ⟨h.1.1, h.1.2, h.2⟩

/-- The `$set` list of `write`. -/
def writeSetL (ty : String) (ids : List String) (content : Value) (now : Nat) :
    List (String × Value) :=
  buildQuery ty ids ++
    [("_id", Value.vStr (buildDocId ty ids)), ("data", content), ("updatedAt", Value.vDate now)]

theorem write_unfold (s : Store) (ty : String) (ids : List String) (content : Value)
    (now : Nat) :
    write s ty ids content now =
      setColl s (collectionName ty)
        (updateOne (getColl s (collectionName ty)) (idQuery ty ids)
          (writeSetL ty ids content now) [("version", Value.vNum 1)] [] true).1 := rfl

theorem applyUpd_writeSetL_fields (d : Doc) (ty : String) (ids : List String)
    (content : Value) (now : Nat) :
    assocGet (applyUpd d (writeSetL ty ids content now) []) "data" = some content ∧
    assocGet (applyUpd d (writeSetL ty ids content now) []) "_id" =
      some (Value.vStr (buildDocId ty ids)) ∧
    assocGet (applyUpd d (writeSetL ty ids content now) []) "updatedAt" =
      some (Value.vDate now) ∧
    assocGet (applyUpd d (writeSetL ty ids content now) []) "version" =
      assocGet d "version" := by
  have hq : ∀ p ∈ buildQuery ty ids, p.1 ≠ "version" :=
    fun p hp => (buildQuery_key_disj ty ids p hp).1
  unfold applyUpd writeSetL
  rw [applySet_append]
  simp only [applyInc, applySet]
  refine ⟨?_, ?_, ?_, ?_⟩
  · rw [assocGet_assocSet_ne _ _ _ _ (by decide), assocGet_assocSet_same]
  · rw [assocGet_assocSet_ne _ _ _ _ (by decide), assocGet_assocSet_ne _ _ _ _ (by decide),
      assocGet_assocSet_same]
  · rw [assocGet_assocSet_same]
  · rw [assocGet_assocSet_ne _ _ _ _ (by decide), assocGet_assocSet_ne _ _ _ _ (by decide),
      assocGet_assocSet_ne _ _ _ _ (by decide), assocGet_applySet_not_key _ _ _ hq]

theorem upsertDoc_write_fields (ty : String) (ids : List String) (content : Value)
    (now : Nat) :
    assocGet (buildUpsertDoc (idQuery ty ids) (writeSetL ty ids content now)
        [("version", Value.vNum 1)] []) "data" = some content ∧
    assocGet (buildUpsertDoc (idQuery ty ids) (writeSetL ty ids content now)
        [("version", Value.vNum 1)] []) "_id" = some (Value.vStr (buildDocId ty ids)) ∧
    assocGet (buildUpsertDoc (idQuery ty ids) (writeSetL ty ids content now)
        [("version", Value.vNum 1)] []) "updatedAt" = some (Value.vDate now) ∧
    assocGet (buildUpsertDoc (idQuery ty ids) (writeSetL ty ids content now)
        [("version", Value.vNum 1)] []) "version" = some (Value.vNum 1) := by
  unfold buildUpsertDoc writeSetL
  rw [applySet_append]
  simp only [applyInc, applySet]
  refine ⟨?_, ?_, ?_, ?_⟩
  · rw [assocGet_assocSet_ne _ _ _ _ (by decide), assocGet_assocSet_ne _ _ _ _ (by decide),
      assocGet_assocSet_same]
  · rw [assocGet_assocSet_ne _ _ _ _ (by decide), assocGet_assocSet_ne _ _ _ _ (by decide),
      assocGet_assocSet_ne _ _ _ _ (by decide), assocGet_assocSet_same]
  · rw [assocGet_assocSet_ne _ _ _ _ (by decide), assocGet_assocSet_same]
  · rw [assocGet_assocSet_same]

theorem docMatches_single (u : Doc) (f x : String)
    (h : assocGet u f = some (Value.vStr x)) :
    docMatches u [(f, Value.vStr x)] = true := by
  simp [docMatches, h, fieldMatches, Value.beq]

/-- After a `write`, the document found by id is the written one:
payload, id, timestamp as written, and the version either preserved (the
document existed) or 1 (it was inserted). -/
theorem write_findOne_cases (s : Store) (ty : String) (ids : List String)
    (content : Value) (now : Nat) :
    ∃ u, findOne (getColl (write s ty ids content now) (collectionName ty))
        (idQuery ty ids) = some u ∧
      assocGet u "data" = some content ∧
      assocGet u "updatedAt" = some (Value.vDate now) ∧
      ((∃ d, findOne (getColl s (collectionName ty)) (idQuery ty ids) = some d ∧
          assocGet u "version" = assocGet d "version") ∨
        (findOne (getColl s (collectionName ty)) (idQuery ty ids) = none ∧
          assocGet u "version" = some (Value.vNum 1))) := by
  rw [write_unfold, getColl_setColl_same]
  cases hf : findOne (getColl s (collectionName ty)) (idQuery ty ids) with
  | none =>
    rw [updateOne_of_miss _ _ _ _ _ hf]
    obtain ⟨hdata, hid, hupd, hver⟩ := upsertDoc_write_fields ty ids content now
    refine ⟨_, ?_, hdata, hupd, Or.inr ⟨rfl, hver⟩⟩
    have hall := (findOne_eq_none_iff _ _).mp hf
    have hm : docMatches (buildUpsertDoc (idQuery ty ids) (writeSetL ty ids content now)
        [("version", Value.vNum 1)] []) (idQuery ty ids) = true :=
      docMatches_single _ _ _ hid
    have := findOne_first (getColl s (collectionName ty)) _ [] (idQuery ty ids) hall hm
    simpa using this
  | some d =>
    obtain ⟨bs, as, he, hbs, hd, hup⟩ :=
      updateOne_of_hit (getColl s (collectionName ty)) (idQuery ty ids)
        (writeSetL ty ids content now) [("version", Value.vNum 1)] [] true d hf
    rw [hup]
    obtain ⟨hdata, hid, hupd, hver⟩ := applyUpd_writeSetL_fields d ty ids content now
    refine ⟨_, ?_, hdata, hupd, Or.inl ⟨d, rfl, hver⟩⟩
    exact findOne_first bs _ as (idQuery ty ids) hbs (docMatches_single _ _ _ hid)

end MongoStorage

/-- C2: for every key and record, `write` then `read` returns the record
unchanged: `write` upserts the document whose id is the `/`-joined id
segments with the payload stored under the `data` field, and `read` looks
that document up by the same id and returns only the `data` field. -/
theorem write_read_roundtrip (s : Store) (ty : String) (ids : List String)
    (content : Value) (now : Nat) :
    MongoStorage.read (MongoStorage.write s ty ids content now) ty ids = some content := by
  obtain ⟨u, hfind, hdata, _, _⟩ :=
    MongoStorage.write_findOne_cases s ty ids content now
  unfold MongoStorage.read
  rw [hfind]
  simp [jsGet, hdata]

theorem beq_vStr_sound (v : Value) (x : String)
    (h : Value.beq v (Value.vStr x) = true) : v = Value.vStr x := by
  cases v <;> simp [Value.beq] at h <;> simp [h]

theorem beq_vNum_sound (v : Value) (n : Int)
    (h : Value.beq v (Value.vNum n) = true) : v = Value.vNum n := by
  cases v <;> simp [Value.beq] at h <;> simp [h]

/-- C6: `write` upserts by document id, setting payload, filter fields and
`updatedAt`, and sets `version = 1` only when the document is inserted: a
write to an already-existing document leaves its `version` field exactly as
it was. -/
theorem write_version_semantics (s : Store) (ty : String) (ids : List String)
    (content : Value) (now : Nat) :
    (∀ d, findOne (getColl s (MongoStorage.collectionName ty))
        (MongoStorage.idQuery ty ids) = some d →
      ∃ u, findOne (getColl (MongoStorage.write s ty ids content now)
          (MongoStorage.collectionName ty)) (MongoStorage.idQuery ty ids) = some u ∧
        assocGet u "version" = assocGet d "version" ∧
        assocGet u "data" = some content ∧
        assocGet u "updatedAt" = some (Value.vDate now)) ∧
    (findOne (getColl s (MongoStorage.collectionName ty))
        (MongoStorage.idQuery ty ids) = none →
      ∃ u, findOne (getColl (MongoStorage.write s ty ids content now)
          (MongoStorage.collectionName ty)) (MongoStorage.idQuery ty ids) = some u ∧
        assocGet u "version" = some (Value.vNum 1) ∧
        assocGet u "data" = some content ∧
        assocGet u "updatedAt" = some (Value.vDate now)) := by
  obtain ⟨u, hf, hdata, hupd, hcase⟩ :=
    MongoStorage.write_findOne_cases s ty ids content now
  constructor
  · intro d hd
    rcases hcase with ⟨d0, hd0, hver⟩ | ⟨hnone, _⟩
    · have : d0 = d := by rw [hd0] at hd; exact Option.some.inj hd
      subst this
      exact ⟨u, hf, hver, hdata, hupd⟩
    · rw [hnone] at hd; cases hd
  · intro hnone
    rcases hcase with ⟨d0, hd0, _⟩ | ⟨_, hver⟩
    · rw [hnone] at hd0; cases hd0
    · exact ⟨u, hf, hver, hdata, hupd⟩

/-- Witness for C6: inserting into an empty store creates the document with
`version = 1`. -/
theorem write_version_semantics_witness :
    ∃ u, findOne (getColl (MongoStorage.write [] "session" ["p1", "s1"]
        (Value.vStr "payload") 7) (MongoStorage.collectionName "session"))
        (MongoStorage.idQuery "session" ["p1", "s1"]) = some u ∧
      assocGet u "version" = some (Value.vNum 1) ∧
      assocGet u "data" = some (Value.vStr "payload") ∧
      assocGet u "updatedAt" = some (Value.vDate 7) :=
  (write_version_semantics [] "session" ["p1", "s1"] (Value.vStr "payload") 7).2 rfl

namespace MongoStorage

/-- The query selecting the default config document. -/
def configQuery : Query := [("_id", Value.vStr "default")]

theorem configSet_unfold (s : Store) (config : Value) (now : Nat) :
    configSet s config now =
      setColl s "config"
        (updateOne (getColl s "config") configQuery
          [("data", config), ("updatedAt", Value.vDate now)] [] [] true).1 := rfl

end MongoStorage

/-- C3: `configSet` stores the configuration strictly under the payload
field, preserving every other (metadata) field of the config document, and
`configGet` afterwards returns exactly the payload that was set — no id,
version, timestamp or other storage-metadata field appears in the result. -/
theorem configSet_configGet (s : Store) (config : Value) (now : Nat) :
    MongoStorage.configGet (MongoStorage.configSet s config now) = config ∧
    (∀ d, findOne (getColl s "config") MongoStorage.configQuery = some d →
      ∀ f, f ≠ "data" → f ≠ "updatedAt" →
        ∃ u, findOne (getColl (MongoStorage.configSet s config now) "config")
            MongoStorage.configQuery = some u ∧
          assocGet u f = assocGet d f) := by
  rw [MongoStorage.configSet_unfold]
  cases hf : findOne (getColl s "config") MongoStorage.configQuery with
  | none =>
    rw [updateOne_of_miss _ _ _ _ _ hf]
    have hall := (findOne_eq_none_iff (getColl s "config") MongoStorage.configQuery).mp hf
    have hid : assocGet (buildUpsertDoc MongoStorage.configQuery
        [("data", config), ("updatedAt", Value.vDate now)] [] []) "_id" =
        some (Value.vStr "default") := by
      simp [buildUpsertDoc, applySet, applyInc, MongoStorage.configQuery,
        assocGet_assocSet_ne, assocGet_assocSet_same, assocGet]
    have hm := MongoStorage.docMatches_single _ "_id" "default" hid
    have hfind := findOne_first (getColl s "config") _ [] MongoStorage.configQuery hall
      (by exact hm)
    constructor
    · unfold MongoStorage.configGet
      rw [getColl_setColl_same]
      rw [show getColl s "config" ++ [buildUpsertDoc MongoStorage.configQuery
          [("data", config), ("updatedAt", Value.vDate now)] [] []] =
        getColl s "config" ++ buildUpsertDoc MongoStorage.configQuery
          [("data", config), ("updatedAt", Value.vDate now)] [] [] :: [] from rfl]
      rw [show ([("_id", Value.vStr "default")] : Query) = MongoStorage.configQuery from rfl]
      rw [hfind]
      simp [jsGet, buildUpsertDoc, applySet, applyInc, MongoStorage.configQuery,
        assocGet_assocSet_ne, assocGet_assocSet_same, assocGet]
    · intro d hd
      simp at hd
  | some d =>
    obtain ⟨bs, as, he, hbs, hd, hup⟩ :=
      updateOne_of_hit (getColl s "config") MongoStorage.configQuery
        [("data", config), ("updatedAt", Value.vDate now)] [] [] true d hf
    rw [hup]
    have hdid : assocGet d "_id" = some (Value.vStr "default") := by
      have hm : fieldMatches (assocGet d "_id") (Value.vStr "default") = true := by
        simpa [docMatches, MongoStorage.configQuery] using hd
      cases hg : assocGet d "_id" with
      | none => rw [hg] at hm; simp [fieldMatches, Value.beq] at hm
      | some v =>
        rw [hg] at hm
        simp only [fieldMatches] at hm
        rw [beq_vStr_sound v "default" hm]
    have huid : assocGet (applyUpd d [("data", config), ("updatedAt", Value.vDate now)] [])
        "_id" = some (Value.vStr "default") := by
      unfold applyUpd
      simp only [applyInc, applySet]
      rw [assocGet_assocSet_ne _ _ _ _ (by decide), assocGet_assocSet_ne _ _ _ _ (by decide)]
      exact hdid
    have hm2 := MongoStorage.docMatches_single _ "_id" "default" huid
    have hfind := findOne_first bs _ as MongoStorage.configQuery hbs hm2
    constructor
    · unfold MongoStorage.configGet
      rw [getColl_setColl_same]
      rw [show ([("_id", Value.vStr "default")] : Query) = MongoStorage.configQuery from rfl]
      rw [hfind]
      simp [jsGet, applyUpd, applyInc, applySet, assocGet_assocSet_ne,
        assocGet_assocSet_same]
    · intro d0 hd0 f hf1 hf2
      have : d0 = d := (Option.some.inj hd0).symm
      subst this
      refine ⟨_, by rw [getColl_setColl_same]; exact hfind, ?_⟩
      unfold applyUpd
      simp only [applyInc, applySet]
      rw [assocGet_assocSet_ne _ _ _ _ (fun e => hf2 e.symm),
        assocGet_assocSet_ne _ _ _ _ (fun e => hf1 e.symm)]

/-- Witness for C3: `configSet` of the object with one field `a = 1` on the
empty store, then `configGet`, returns exactly that object; and on a store
whose config document carries an extra metadata field, that field is
preserved. -/
theorem configSet_configGet_witness :
    MongoStorage.configGet (MongoStorage.configSet []
      (Value.vObj [("a", Value.vNum 1)]) 3) = Value.vObj [("a", Value.vNum 1)] ∧
    (∃ u, findOne (getColl (MongoStorage.configSet
        [("config", [[("_id", Value.vStr "default"), ("data", Value.vNum 0),
          ("version", Value.vNum 4)]])]
        (Value.vObj [("a", Value.vNum 1)]) 3) "config")
        MongoStorage.configQuery = some u ∧
      assocGet u "version" =
        assocGet [("_id", Value.vStr "default"), ("data", Value.vNum 0),
          ("version", Value.vNum 4)] "version") :=
  And.intro
    ((configSet_configGet [] (Value.vObj [("a", Value.vNum 1)]) 3).1)
    ((configSet_configGet
        [("config", [[("_id", Value.vStr "default"), ("data", Value.vNum 0),
          ("version", Value.vNum 4)]])]
        (Value.vObj [("a", Value.vNum 1)]) 3).2
      [("_id", Value.vStr "default"), ("data", Value.vNum 0), ("version", Value.vNum 4)]
      rfl "version" (by decide) (by decide))

/-- C5: `update` of a key whose document is absent fails with NotFound
before any write is attempted, whatever the interference: the returned
store is exactly the input store. -/
theorem update_absent_notFound (ty : String) (ids : List String) (fn : Value → Value)
    (now : Nat) (o1 o2 o3 : MongoStorage.Interference) (s : Store)
    (h : findOne (getColl s (MongoStorage.collectionName ty))
      (MongoStorage.idQuery ty ids) = none) :
    MongoStorage.update ty ids fn now o1 o2 o3 s =
      (MongoStorage.UpdResult.notFound, s) := by
  unfold MongoStorage.update
  unfold MongoStorage.updateAttempts
  unfold MongoStorage.idQuery at h
  rw [h]

/-- Witness for C5: updating a key absent from the empty store. -/
theorem update_absent_notFound_witness :
    MongoStorage.update "session" ["p1", "s1"] id 5 (id, id) (id, id) (id, id) [] =
      (MongoStorage.UpdResult.notFound, []) :=
  update_absent_notFound "session" ["p1", "s1"] id 5 (id, id) (id, id) (id, id) [] rfl

/-! ### The optimistic-concurrency protocol (spec side) and its refinement -/

namespace MongoStorage

/-- The filter of the conditional write: document id and expected version. -/
def condQuery (docId : String) (n : Int) : Query :=
  [("_id", Value.vStr docId), ("version", Value.vNum n)]

/-- Spec side of one matched conditional write, in the words of the claim:
the write matches by document id and current version, sets the new payload
and timestamp, and increments the version by exactly 1; every other document
is untouched. -/
def CondWriteHit (c : Coll) (docId : String) (n : Int) (payload : Value) (now : Nat)
    (out : Coll) : Prop :=
  ∃ bs d as, c = bs ++ d :: as ∧
    (∀ e ∈ bs, docMatches e (condQuery docId n) = false) ∧
    docMatches d (condQuery docId n) = true ∧
    out = bs ++ assocSet (assocSet (assocSet d "data" payload)
      "updatedAt" (Value.vDate now)) "version" (Value.vNum (n + 1)) :: as

/-- Spec side of a conditional write that matched zero documents: no
document carries the expected id and version, and nothing is written. -/
def CondWriteMiss (c : Coll) (docId : String) (n : Int) : Prop :=
  ∀ e ∈ c, docMatches e (condQuery docId n) = false

/-- The update protocol of the spec, with `k` attempts remaining: either the
fetch finds no document (NotFound, nothing written), or the conditional
write hits and the mutated payload is returned with the version incremented
by exactly 1, or it misses and the protocol retries from a fresh fetch, or
the attempt budget is exhausted (the concurrency-conflict error, nothing
written by the final attempt).  The stores `t` and `u` are existentially
free because other writers may change the database between the fetch and
the conditional write, and again before the next fetch. -/
inductive UpdateProtocol (cn docId : String) (fn : Value → Value) (now : Nat) :
    Nat → Store → UpdResult × Store → Prop
  | fetchAbsent (k : Nat) (s : Store)
      (hf : findOne (getColl s cn) [("_id", Value.vStr docId)] = none) :
      UpdateProtocol cn docId fn now k s (UpdResult.notFound, s)
  | writeHit (k : Nat) (s t : Store) (d : Doc) (n : Int) (c2 : Coll)
      (hf : findOne (getColl s cn) [("_id", Value.vStr docId)] = some d)
      (hv : jsOr (jsGet d "version") (Value.vNum 0) = Value.vNum n)
      (hw : CondWriteHit (getColl t cn) docId n (fn (jsGet d "data")) now c2) :
      UpdateProtocol cn docId fn now (k + 1) s
        (UpdResult.ok (fn (jsGet d "data")), setColl t cn c2)
  | writeMiss (k : Nat) (s t u : Store) (d : Doc) (n : Int) (r : UpdResult × Store)
      (hf : findOne (getColl s cn) [("_id", Value.vStr docId)] = some d)
      (hv : jsOr (jsGet d "version") (Value.vNum 0) = Value.vNum n)
      (hw : CondWriteMiss (getColl t cn) docId n)
      (hrest : UpdateProtocol cn docId fn now k u r) :
      UpdateProtocol cn docId fn now (k + 1) s r
  | budgetExhausted (s : Store) :
      UpdateProtocol cn docId fn now 0 s (UpdResult.conflict, s)

/-- A collection is well-versioned when every `version` field it carries is
numeric — true of everything `write` and `update` themselves produce. -/
def wvColl (c : Coll) : Bool :=
  c.all fun d =>
    match assocGet d "version" with
    | none => true
    | some (Value.vNum _) => true
    | some _ => false

/-- Well-versionedness of the one collection `update` works in. -/
def wellVersioned (cn : String) (s : Store) : Bool := wvColl (getColl s cn)

/-- An interference function that keeps the collection well-versioned. -/
def preservesWV (cn : String) (g : Store → Store) : Prop :=
  ∀ t, wellVersioned cn t = true → wellVersioned cn (g t) = true

theorem wv_version (c : Coll) (doc : Doc) (h : wvColl c = true) (hm : doc ∈ c) :
    ∃ n, jsOr (jsGet doc "version") (Value.vNum 0) = Value.vNum n := by
  have hall := List.all_eq_true.mp h doc hm
  cases hg : assocGet doc "version" with
  | none => exact ⟨0, by simp [jsGet, hg, jsOr, Value.truthy]⟩
  | some v =>
    rw [hg] at hall
    cases v with
    | vNum m =>
      refine ⟨m, ?_⟩
      by_cases hm0 : m = 0
      · subst hm0; simp [jsGet, hg, jsOr, Value.truthy]
      · simp [jsGet, hg, jsOr, Value.truthy, hm0]
    | vNull => simp at hall
    | vUndef => simp at hall
    | vBool b => simp at hall
    | vStr a => simp at hall
    | vDate t => simp at hall
    | vObj fs => simp at hall

theorem findOne_mem (c : Coll) (φ : Query) (d : Doc) (h : findOne c φ = some d) :
    d ∈ c :=
  List.mem_of_find?_eq_some h

/-- The conditional write of `update`, run with a numeric expected version,
either hits (exactly as the spec-side `CondWriteHit` describes) or misses
and leaves the collection untouched. -/
theorem condWrite_cases (c : Coll) (docId : String) (n : Int) (payload : Value)
    (now : Nat) :
    ((condWrite c docId (Value.vNum n) payload now).2 = 1 ∧
      CondWriteHit c docId n payload now (condWrite c docId (Value.vNum n) payload now).1) ∨
    ((condWrite c docId (Value.vNum n) payload now).2 = 0 ∧
      (condWrite c docId (Value.vNum n) payload now).1 = c ∧
      CondWriteMiss c docId n) := by
  unfold condWrite
  cases hf : findOne c (condQuery docId n) with
  | none =>
    right
    have he : updateOne c (condQuery docId n)
        [("data", payload), ("updatedAt", Value.vDate now)] [] [("version", 1)] false =
        (c, 0) :=
      updateOne_of_miss_noUpsert c _ _ _ _ hf
    unfold condQuery at he
    rw [he]
    exact ⟨rfl, rfl, (findOne_eq_none_iff c _).mp hf⟩
  | some d =>
    left
    obtain ⟨bs, as, hc, hbs, hd, hup⟩ :=
      updateOne_of_hit c (condQuery docId n)
        [("data", payload), ("updatedAt", Value.vDate now)] [] [("version", 1)] false d hf
    have hdv : assocGet d "version" = some (Value.vNum n) := by
      have hfm : fieldMatches (assocGet d "version") (Value.vNum n) = true := by
        have h2 := hd
        simp only [docMatches, condQuery, List.all_cons, List.all_nil,
          Bool.and_eq_true, Bool.and_true] at h2
        exact h2.2
      cases hg : assocGet d "version" with
      | none => rw [hg] at hfm; simp [fieldMatches, Value.beq] at hfm
      | some v =>
        rw [hg] at hfm
        simp only [fieldMatches] at hfm
        rw [beq_vNum_sound v n hfm]
    have happ : applyUpd d [("data", payload), ("updatedAt", Value.vDate now)]
        [("version", 1)] =
        assocSet (assocSet (assocSet d "data" payload) "updatedAt" (Value.vDate now))
          "version" (Value.vNum (n + 1)) := by
      unfold applyUpd
      simp only [applyInc, applySet, applyInc1]
      rw [assocGet_assocSet_ne _ _ _ _ (by decide), assocGet_assocSet_ne _ _ _ _ (by decide),
        hdv]
    unfold condQuery at hup
    rw [hup]
    exact ⟨rfl, bs, d, as, hc, hbs, hd, by rw [happ]⟩

end MongoStorage

namespace MongoStorage

theorem updateAttempts_cons_none (cn docId : String) (fn : Value → Value) (now : Nat)
    (op : Interference) (rest : List Interference) (s : Store)
    (hf : findOne (getColl s cn) [("_id", Value.vStr docId)] = none) :
    updateAttempts cn docId fn now (op :: rest) s = (UpdResult.notFound, s) := by
  unfold updateAttempts
  rw [hf]

theorem updateAttempts_cons_some (cn docId : String) (fn : Value → Value) (now : Nat)
    (op : Interference) (rest : List Interference) (s : Store) (doc : Doc)
    (hf : findOne (getColl s cn) [("_id", Value.vStr docId)] = some doc) :
    updateAttempts cn docId fn now (op :: rest) s =
      (if (condWrite (getColl (op.1 s) cn) docId
            (jsOr (jsGet doc "version") (Value.vNum 0)) (fn (jsGet doc "data")) now).2 = 1
       then (UpdResult.ok (fn (jsGet doc "data")),
             setColl (op.1 s) cn
               (condWrite (getColl (op.1 s) cn) docId
                 (jsOr (jsGet doc "version") (Value.vNum 0)) (fn (jsGet doc "data")) now).1)
       else updateAttempts cn docId fn now rest
              (op.2 (setColl (op.1 s) cn
                (condWrite (getColl (op.1 s) cn) docId
                  (jsOr (jsGet doc "version") (Value.vNum 0))
                  (fn (jsGet doc "data")) now).1))) := by
  conv_lhs => unfold updateAttempts
  rw [hf]

/-- The retry loop refines the protocol, one protocol step per list entry,
as long as the store is well-versioned and the interference keeps it so. -/
theorem updateAttempts_protocol (cn docId : String) (fn : Value → Value) (now : Nat)
    (ops : List Interference) (s : Store)
    (hwv : wellVersioned cn s = true)
    (hops : ∀ p ∈ ops, preservesWV cn p.1 ∧ preservesWV cn p.2) :
    UpdateProtocol cn docId fn now ops.length s
      (updateAttempts cn docId fn now ops s) := by
  induction ops generalizing s with
  | nil => exact UpdateProtocol.budgetExhausted s
  | cons op rest ih =>
    cases hf : findOne (getColl s cn) [("_id", Value.vStr docId)] with
    | none =>
      rw [updateAttempts_cons_none cn docId fn now op rest s hf]
      exact UpdateProtocol.fetchAbsent _ s hf
    | some doc =>
      have hdoc : doc ∈ getColl s cn := findOne_mem _ _ _ hf
      obtain ⟨n, hv⟩ := wv_version (getColl s cn) doc hwv hdoc
      have hwv1 : wellVersioned cn (op.1 s) = true :=
        (hops op (List.mem_cons_self op rest)).1 s hwv
      rw [updateAttempts_cons_some cn docId fn now op rest s doc hf, hv]
      rcases condWrite_cases (getColl (op.1 s) cn) docId n (fn (jsGet doc "data")) now with
        ⟨h1, hhit⟩ | ⟨h0, hsame, hmiss⟩
      · rw [if_pos h1]
        exact UpdateProtocol.writeHit rest.length s (op.1 s) doc n _ hf hv hhit
      · rw [if_neg (by rw [h0]; exact one_ne_zero ∘ Eq.symm)]
        have hwv2 : wellVersioned cn
            (op.2 (setColl (op.1 s) cn
              (condWrite (getColl (op.1 s) cn) docId (Value.vNum n)
                (fn (jsGet doc "data")) now).1)) = true := by
          apply (hops op (List.mem_cons_self op rest)).2
          unfold wellVersioned
          rw [hsame, getColl_setColl_same]
          exact hwv1
        have hrest : ∀ p ∈ rest, preservesWV cn p.1 ∧ preservesWV cn p.2 :=
          fun p hp => hops p (List.mem_cons_of_mem op hp)
        exact UpdateProtocol.writeMiss rest.length s (op.1 s) _ doc n _ hf hv hmiss
          (ih _ hwv2 hrest)

end MongoStorage

/-- C1: for every key, `update` performs the optimistic-concurrency
protocol: it fetches the current document by id, applies the mutate function
to (a deep clone of) the payload, attempts a conditional write matching both
the document id and the current version (`doc.version || 0`) that sets the
new payload and timestamp and increments the version by exactly 1; a
zero-match retries from the fetch, and after `maxRetries = 3` attempts
without a successful conditional write the result is the
concurrency-conflict error.  Version changes happen only through the
successful conditional write (`CondWriteHit`), which raises the matched
version exactly from `n` to `n + 1`; a missed conditional write
(`CondWriteMiss`) writes nothing. -/
theorem update_refines_protocol (ty : String) (ids : List String) (fn : Value → Value)
    (now : Nat) (o1 o2 o3 : MongoStorage.Interference) (s : Store)
    (hwv : MongoStorage.wellVersioned (MongoStorage.collectionName ty) s = true)
    (h1a : MongoStorage.preservesWV (MongoStorage.collectionName ty) o1.1)
    (h1b : MongoStorage.preservesWV (MongoStorage.collectionName ty) o1.2)
    (h2a : MongoStorage.preservesWV (MongoStorage.collectionName ty) o2.1)
    (h2b : MongoStorage.preservesWV (MongoStorage.collectionName ty) o2.2)
    (h3a : MongoStorage.preservesWV (MongoStorage.collectionName ty) o3.1)
    (h3b : MongoStorage.preservesWV (MongoStorage.collectionName ty) o3.2) :
    MongoStorage.UpdateProtocol (MongoStorage.collectionName ty)
      (MongoStorage.buildDocId ty ids) fn now MongoStorage.maxRetries s
      (MongoStorage.update ty ids fn now o1 o2 o3 s) := by
  have hops : ∀ p ∈ [o1, o2, o3],
      MongoStorage.preservesWV (MongoStorage.collectionName ty) p.1 ∧
      MongoStorage.preservesWV (MongoStorage.collectionName ty) p.2 := by
    intro p hp
    rcases List.mem_cons.mp hp with h | hp
    · subst h; exact ⟨h1a, h1b⟩
    rcases List.mem_cons.mp hp with h | hp
    · subst h; exact ⟨h2a, h2b⟩
    rcases List.mem_cons.mp hp with h | hp
    · subst h; exact ⟨h3a, h3b⟩
    · cases hp
  have h := MongoStorage.updateAttempts_protocol (MongoStorage.collectionName ty)
    (MongoStorage.buildDocId ty ids) fn now [o1, o2, o3] s hwv hops
  exact h

/-- Witness for C1: a singleton session store with version 1 and no
interference. -/
theorem update_refines_protocol_witness :
    MongoStorage.UpdateProtocol (MongoStorage.collectionName "session")
      (MongoStorage.buildDocId "session" ["p1", "s1"]) id 9 MongoStorage.maxRetries
      [("sessions", [[("_id", Value.vStr "p1/s1"), ("data", Value.vStr "x"),
        ("version", Value.vNum 1)]])]
      (MongoStorage.update "session" ["p1", "s1"] id 9 (id, id) (id, id) (id, id)
        [("sessions", [[("_id", Value.vStr "p1/s1"), ("data", Value.vStr "x"),
          ("version", Value.vNum 1)]])]) :=
  update_refines_protocol "session" ["p1", "s1"] id 9 (id, id) (id, id) (id, id)
    [("sessions", [[("_id", Value.vStr "p1/s1"), ("data", Value.vStr "x"),
      ("version", Value.vNum 1)]])]
    (by decide) (fun t h => h) (fun t h => h) (fun t h => h) (fun t h => h)
    (fun t h => h) (fun t h => h)

/-! ### The MCP-auth partial updates change only their target field -/

namespace MongoStorage

theorem updateFirstWith_of_none (φ : Query) (f : Doc → Doc) (c : Coll)
    (h : ∀ d ∈ c, docMatches d φ = false) :
    updateFirstWith φ f c = (c, false) := by
  induction c with
  | nil => rfl
  | cons b rest ih =>
    have hb : docMatches b φ = false := h b (by simp)
    have hrest : ∀ d ∈ rest, docMatches d φ = false := fun d hd => h d (by simp [hd])
    simp [updateFirstWith, hb, ih hrest]

theorem updateFirstWith_first (φ : Query) (f : Doc → Doc) (bs : Coll) (d : Doc)
    (as : Coll) (hbs : ∀ e ∈ bs, docMatches e φ = false)
    (hd : docMatches d φ = true) :
    updateFirstWith φ f (bs ++ d :: as) = (bs ++ f d :: as, true) := by
  induction bs with
  | nil => simp [updateFirstWith, hd]
  | cons b rest ih =>
    have hb : docMatches b φ = false := hbs b (by simp)
    have hrest : ∀ e ∈ rest, docMatches e φ = false := fun e he => hbs e (by simp [he])
    simp [updateFirstWith, hb, ih hrest]

theorem matched_mcpName (d : Doc) (name : String)
    (hd : docMatches d [("mcpName", Value.vStr name)] = true) :
    assocGet d "mcpName" = some (Value.vStr name) := by
  have hfm : fieldMatches (assocGet d "mcpName") (Value.vStr name) = true := by
    simpa [docMatches] using hd
  cases hg : assocGet d "mcpName" with
  | none => rw [hg] at hfm; simp [fieldMatches, Value.beq] at hfm
  | some v =>
    rw [hg] at hfm
    simp only [fieldMatches] at hfm
    rw [beq_vStr_sound v name hfm]

theorem setEntryField_eq_assocSetData (d : Doc) (field : String) (v : Value) :
    ∃ X, setEntryField d field v = assocSet d "data" X := by
  unfold setEntryField
  cases hg : assocGet d "data" with
  | none => exact ⟨_, rfl⟩
  | some w => cases w <;> exact ⟨_, rfl⟩

theorem trUpdate_mcpName (d : Doc) (field : String) (v : Value) (now : Nat) :
    assocGet (assocSet (setEntryField d field v) "updatedAt" (Value.vDate now))
      "mcpName" = assocGet d "mcpName" := by
  obtain ⟨X, hX⟩ := setEntryField_eq_assocSetData d field v
  rw [hX, assocGet_assocSet_ne _ _ _ _ (by decide),
    assocGet_assocSet_ne _ _ _ _ (by decide)]

theorem trUpdate_data (d : Doc) (field : String) (v : Value) (now : Nat) :
    assocGet (assocSet (setEntryField d field v) "updatedAt" (Value.vDate now))
      "data" =
      some (match assocGet d "data" with
            | some (Value.vObj fs) => Value.vObj (assocSet fs field v)
            | _ => Value.vObj [(field, v)]) := by
  rw [assocGet_assocSet_ne _ _ _ _ (by decide)]
  unfold setEntryField
  cases hg : assocGet d "data" with
  | none => simp [assocGet_assocSet_same]
  | some w => cases w <;> simp [assocGet_assocSet_same]

theorem trUnset_mcpName (d : Doc) (field : String) (now : Nat) :
    assocGet (assocSet (unsetEntryField d field) "updatedAt" (Value.vDate now))
      "mcpName" = assocGet d "mcpName" := by
  unfold unsetEntryField
  cases hg : assocGet d "data" with
  | none => rw [assocGet_assocSet_ne _ _ _ _ (by decide)]
  | some w =>
    cases w <;>
      first
        | rw [assocGet_assocSet_ne _ _ _ _ (by decide),
            assocGet_assocSet_ne _ _ _ _ (by decide)]
        | rw [assocGet_assocSet_ne _ _ _ _ (by decide)]

theorem trUnset_data (d : Doc) (field : String) (now : Nat) :
    assocGet (assocSet (unsetEntryField d field) "updatedAt" (Value.vDate now))
      "data" =
      (match assocGet d "data" with
       | some (Value.vObj fs) => some (Value.vObj (assocRemove fs field))
       | other => other) := by
  rw [assocGet_assocSet_ne _ _ _ _ (by decide)]
  unfold unsetEntryField
  cases hg : assocGet d "data" with
  | none => simp [hg]
  | some w => cases w <;> simp [hg, assocGet_assocSet_same]

/-- A targeted field set reads back as exactly that field changed: the set
subfield holds the new value and every other subfield of the stored entry is
as before. -/
theorem mcpAuthUpdateField_entry (s : Store) (name field : String) (v : Value)
    (now : Nat) :
    entryField (mcpAuthUpdateField s name field v now) name field = some v ∧
    ∀ f, f ≠ field →
      entryField (mcpAuthUpdateField s name field v now) name f =
        entryField s name f := by
  unfold mcpAuthUpdateField
  cases hf : findOne (getColl s "mcp_auth") [("mcpName", Value.vStr name)] with
  | none =>
    have hall := (findOne_eq_none_iff _ _).mp hf
    rw [updateFirstWith_of_none _ _ _ hall]
    have hseed : assocSet (setEntryField [("mcpName", Value.vStr name)] field v)
        "updatedAt" (Value.vDate now) =
        [("mcpName", Value.vStr name), ("data", Value.vObj [(field, v)]),
         ("updatedAt", Value.vDate now)] := rfl
    have hm : docMatches (assocSet (setEntryField [("mcpName", Value.vStr name)] field v)
        "updatedAt" (Value.vDate now)) [("mcpName", Value.vStr name)] = true := by
      apply docMatches_single
      rw [trUpdate_mcpName]
      rfl
    have hfind := findOne_first (getColl s "mcp_auth") _ [] _ hall hm
    constructor
    · unfold entryField
      rw [getColl_setColl_same, hfind, hseed]
      simp [assocGet]
    · intro f hne
      unfold entryField
      rw [getColl_setColl_same, hfind, hf, hseed]
      simp only [assocGet]
      simp only [show (("mcpName" : String) = "data") = False by simp,
        show (("data" : String) = "data") = True by simp, if_true, if_false]
      simp only [assocGet]
      rw [if_neg (fun e => hne e.symm)]
  | some d =>
    obtain ⟨bs, as, he, hbs, hd⟩ := findOne_some_decomp _ _ _ hf
    rw [he, updateFirstWith_first _ _ bs d as hbs hd]
    have hm : docMatches (assocSet (setEntryField d field v) "updatedAt"
        (Value.vDate now)) [("mcpName", Value.vStr name)] = true := by
      apply docMatches_single
      rw [trUpdate_mcpName]
      exact matched_mcpName d name hd
    have hfind := findOne_first bs _ as _ hbs hm
    constructor
    · unfold entryField
      rw [getColl_setColl_same, hfind]
      simp only [trUpdate_data]
      cases hg : assocGet d "data" with
      | none => simp [assocGet, assocGet_assocSet_same]
      | some w => cases w <;> simp [assocGet, assocGet_assocSet_same]
    · intro f hne
      unfold entryField
      rw [getColl_setColl_same, hfind, hf]
      simp only [trUpdate_data]
      cases hg : assocGet d "data" with
      | none =>
        simp only [assocGet]
        rw [if_neg (fun e => hne e.symm)]
      | some w =>
        cases w with
        | vObj fs =>
          simp only []
          rw [assocGet_assocSet_ne fs field f v (Ne.symm hne)]
        | vNull => simp only [assocGet]; rw [if_neg (fun e => hne e.symm)]
        | vUndef => simp only [assocGet]; rw [if_neg (fun e => hne e.symm)]
        | vBool b => simp only [assocGet]; rw [if_neg (fun e => hne e.symm)]
        | vNum n => simp only [assocGet]; rw [if_neg (fun e => hne e.symm)]
        | vStr a => simp only [assocGet]; rw [if_neg (fun e => hne e.symm)]
        | vDate t => simp only [assocGet]; rw [if_neg (fun e => hne e.symm)]

end MongoStorage

namespace MongoStorage

/-- A targeted field unset reads back as exactly that field removed. -/
theorem mcpAuthUnsetField_entry (s : Store) (name field : String) (now : Nat) :
    entryField (mcpAuthUnsetField s name field now) name field = none ∧
    ∀ f, f ≠ field →
      entryField (mcpAuthUnsetField s name field now) name f =
        entryField s name f := by
  unfold mcpAuthUnsetField
  cases hf : findOne (getColl s "mcp_auth") [("mcpName", Value.vStr name)] with
  | none =>
    have hall := (findOne_eq_none_iff _ _).mp hf
    rw [updateFirstWith_of_none _ _ _ hall]
    constructor
    · unfold entryField
      rw [hf]
    · intro f hne
      rfl
  | some d =>
    obtain ⟨bs, as, he, hbs, hd⟩ := findOne_some_decomp _ _ _ hf
    rw [he, updateFirstWith_first _ _ bs d as hbs hd]
    have hm : docMatches (assocSet (unsetEntryField d field) "updatedAt"
        (Value.vDate now)) [("mcpName", Value.vStr name)] = true := by
      apply docMatches_single
      rw [trUnset_mcpName]
      exact matched_mcpName d name hd
    have hfind := findOne_first bs _ as _ hbs hm
    constructor
    · unfold entryField
      rw [getColl_setColl_same, hfind]
      simp only [trUnset_data]
      cases hg : assocGet d "data" with
      | none => rfl
      | some w => cases w <;> simp [assocGet_assocRemove_same]
    · intro f hne
      unfold entryField
      rw [getColl_setColl_same, hfind, hf]
      simp only [trUnset_data]
      cases hg : assocGet d "data" with
      | none => rfl
      | some w =>
        cases w with
        | vObj fs =>
          simp only []
          rw [assocGet_assocRemove_ne fs field f (Ne.symm hne)]
        | vNull => rfl
        | vUndef => rfl
        | vBool b => rfl
        | vNum n => rfl
        | vStr a => rfl
        | vDate t => rfl

end MongoStorage

/-- C4: each field-level partial update of the MCP-auth store — implemented
on the document backend as a targeted field set or unset on the stored
entry — changes only its target field (`tokens`, `clientInfo`,
`codeVerifier` respectively) and leaves every sibling field of the stored
entry unchanged. -/
theorem mcpAuth_partial_updates_frame (s : Store) (name : String)
    (tok ci cv : Value) (now : Nat) (f : String) :
    (MongoStorage.entryField (McpAuth.updateTokens s name tok now) name "tokens" =
      some tok) ∧
    (f ≠ "tokens" →
      MongoStorage.entryField (McpAuth.updateTokens s name tok now) name f =
        MongoStorage.entryField s name f) ∧
    (MongoStorage.entryField (McpAuth.updateClientInfo s name ci now) name
      "clientInfo" = some ci) ∧
    (f ≠ "clientInfo" →
      MongoStorage.entryField (McpAuth.updateClientInfo s name ci now) name f =
        MongoStorage.entryField s name f) ∧
    (MongoStorage.entryField (McpAuth.updateCodeVerifier s name cv now) name
      "codeVerifier" = some cv) ∧
    (f ≠ "codeVerifier" →
      MongoStorage.entryField (McpAuth.updateCodeVerifier s name cv now) name f =
        MongoStorage.entryField s name f) ∧
    (MongoStorage.entryField (McpAuth.clearCodeVerifier s name now) name
      "codeVerifier" = none) ∧
    (f ≠ "codeVerifier" →
      MongoStorage.entryField (McpAuth.clearCodeVerifier s name now) name f =
        MongoStorage.entryField s name f) :=
  ⟨(MongoStorage.mcpAuthUpdateField_entry s name "tokens" tok now).1,
   fun h => (MongoStorage.mcpAuthUpdateField_entry s name "tokens" tok now).2 f h,
   (MongoStorage.mcpAuthUpdateField_entry s name "clientInfo" ci now).1,
   fun h => (MongoStorage.mcpAuthUpdateField_entry s name "clientInfo" ci now).2 f h,
   (MongoStorage.mcpAuthUpdateField_entry s name "codeVerifier" cv now).1,
   fun h => (MongoStorage.mcpAuthUpdateField_entry s name "codeVerifier" cv now).2 f h,
   (MongoStorage.mcpAuthUnsetField_entry s name "codeVerifier" now).1,
   fun h => (MongoStorage.mcpAuthUnsetField_entry s name "codeVerifier" now).2 f h⟩

/-- Witness for C4: on a store holding an entry with all three fields,
updating the tokens leaves the client info unchanged (checked at
`f = "clientInfo"`). -/
theorem mcpAuth_partial_updates_frame_witness :
    MongoStorage.entryField (McpAuth.updateTokens
      [("mcp_auth", [[("mcpName", Value.vStr "srv"),
        ("data", Value.vObj [("tokens", Value.vStr "t0"),
          ("clientInfo", Value.vStr "c0"), ("codeVerifier", Value.vStr "v0")])]])]
      "srv" (Value.vStr "t1") 4) "srv" "clientInfo" =
      MongoStorage.entryField
      [("mcp_auth", [[("mcpName", Value.vStr "srv"),
        ("data", Value.vObj [("tokens", Value.vStr "t0"),
          ("clientInfo", Value.vStr "c0"), ("codeVerifier", Value.vStr "v0")])]])]
      "srv" "clientInfo" :=
  (mcpAuth_partial_updates_frame
    [("mcp_auth", [[("mcpName", Value.vStr "srv"),
      ("data", Value.vObj [("tokens", Value.vStr "t0"),
        ("clientInfo", Value.vStr "c0"), ("codeVerifier", Value.vStr "v0")])]])]
    "srv" (Value.vStr "t1") (Value.vStr "c1") (Value.vStr "v1") 4
    "clientInfo").2.1 (by decide)

/-! ### The bulk auth reads silently drop falsy entries -/

namespace MongoStorage

/-- One step of the `authAll` / `mcpAuthAll` reduce, generic in the name
field (`providerId` respectively `mcpName`). -/
def allStep (keyField : String) (acc : List (String × Value)) (d : Doc) :
    List (String × Value) :=
  if (jsGet d keyField).truthy && (jsGet d "data").truthy then
    assocSet acc (jsGet d keyField).jsToString (jsGet d "data")
  else acc

theorem authAll_eq_fold (s : Store) :
    authAll s = (getColl s "auth").foldl (allStep "providerId") [] := rfl

theorem mcpAuthAll_eq_fold (s : Store) :
    mcpAuthAll s = (getColl s "mcp_auth").foldl (allStep "mcpName") [] := rfl

theorem assocGet_assocSet_cases (d : List (String × Value)) (k p : String)
    (v0 w : Value) (h : assocGet (assocSet d k v0) p = some w) :
    (p = k ∧ w = v0) ∨ assocGet d p = some w := by
  by_cases hp : p = k
  · subst hp
    rw [assocGet_assocSet_same] at h
    exact Or.inl ⟨rfl, (Option.some.inj h).symm⟩
  · right
    rw [assocGet_assocSet_ne d k p v0 (fun e => hp e.symm)] at h
    exact h

theorem foldl_allStep_filter (keyField : String) (c : Coll)
    (acc : List (String × Value)) :
    c.foldl (allStep keyField) acc =
      (c.filter fun d => (jsGet d keyField).truthy && (jsGet d "data").truthy).foldl
        (allStep keyField) acc := by
  induction c generalizing acc with
  | nil => rfl
  | cons d rest ih =>
    by_cases hk : ((jsGet d keyField).truthy && (jsGet d "data").truthy) = true
    · simp only [List.foldl, List.filter_cons, hk, if_pos rfl]
      rw [show allStep keyField acc d =
        assocSet acc (jsGet d keyField).jsToString (jsGet d "data") from by
          unfold allStep; rw [if_pos hk]]
      exact ih _
    · have hk0 : ((jsGet d keyField).truthy && (jsGet d "data").truthy) = false := by
        simpa using hk
      simp only [List.foldl, List.filter_cons, hk0]
      rw [show allStep keyField acc d = acc from by unfold allStep; rw [if_neg hk]]
      simp only [Bool.false_eq_true, if_false]
      exact ih _

theorem foldl_allStep_truthy (keyField : String) :
    ∀ (c : Coll) (acc : List (String × Value)),
      (∀ p v, assocGet acc p = some v → v.truthy = true) →
      ∀ p v, assocGet (c.foldl (allStep keyField) acc) p = some v →
        v.truthy = true := by
  intro c
  induction c with
  | nil => intro acc hacc p v h; exact hacc p v h
  | cons d rest ih =>
    intro acc hacc p v h
    simp only [List.foldl] at h
    refine ih _ ?_ p v h
    intro p2 v2 h2
    unfold allStep at h2
    by_cases hk : ((jsGet d keyField).truthy && (jsGet d "data").truthy) = true
    · rw [if_pos hk] at h2
      rcases assocGet_assocSet_cases _ _ _ _ _ h2 with ⟨_, hv⟩ | hold
      · subst hv
        exact (Bool.and_eq_true _ _).mp hk |>.2
      · exact hacc p2 v2 hold
    · rw [if_neg hk] at h2
      exact hacc p2 v2 h2

end MongoStorage

/-- C10 (implicit): `authAll` and `mcpAuthAll` silently omit every stored
document whose payload (`data`) or name field (`providerId` / `mcpName`) is
falsy: deleting all such documents from the collection does not change the
result at all, and every payload the result does hold is truthy — the bulk
read is not a faithful enumeration of every stored entry. -/
theorem authAll_drops_falsy (s : Store) :
    (MongoStorage.authAll s =
      MongoStorage.authAll (setColl s "auth" ((getColl s "auth").filter fun d =>
        (jsGet d "providerId").truthy && (jsGet d "data").truthy))) ∧
    (MongoStorage.mcpAuthAll s =
      MongoStorage.mcpAuthAll (setColl s "mcp_auth"
        ((getColl s "mcp_auth").filter fun d =>
          (jsGet d "mcpName").truthy && (jsGet d "data").truthy))) ∧
    (∀ p v, assocGet (MongoStorage.authAll s) p = some v → v.truthy = true) ∧
    (∀ p v, assocGet (MongoStorage.mcpAuthAll s) p = some v → v.truthy = true) := by
  refine ⟨?_, ?_, ?_, ?_⟩
  · rw [MongoStorage.authAll_eq_fold, MongoStorage.authAll_eq_fold,
      getColl_setColl_same]
    exact MongoStorage.foldl_allStep_filter "providerId" _ []
  · rw [MongoStorage.mcpAuthAll_eq_fold, MongoStorage.mcpAuthAll_eq_fold,
      getColl_setColl_same]
    exact MongoStorage.foldl_allStep_filter "mcpName" _ []
  · rw [MongoStorage.authAll_eq_fold]
    exact MongoStorage.foldl_allStep_truthy "providerId" _ []
      (fun p v h => by simp [assocGet] at h)
  · rw [MongoStorage.mcpAuthAll_eq_fold]
    exact MongoStorage.foldl_allStep_truthy "mcpName" _ []
      (fun p v h => by simp [assocGet] at h)

/-- Witness for C10: on a store with one truthy auth entry and one whose
payload is `null`, the result equals the result over the filtered
collection (the null entry contributes nothing), and the surviving value is
truthy. -/
theorem authAll_drops_falsy_witness :
    (MongoStorage.authAll
        [("auth", [[("providerId", Value.vStr "anthropic"), ("data", Value.vStr "k")],
          [("providerId", Value.vStr "bad"), ("data", Value.vNull)]])] =
      MongoStorage.authAll (setColl
        [("auth", [[("providerId", Value.vStr "anthropic"), ("data", Value.vStr "k")],
          [("providerId", Value.vStr "bad"), ("data", Value.vNull)]])]
        "auth" ((getColl
          [("auth", [[("providerId", Value.vStr "anthropic"), ("data", Value.vStr "k")],
            [("providerId", Value.vStr "bad"), ("data", Value.vNull)]])]
          "auth").filter fun d =>
            (jsGet d "providerId").truthy && (jsGet d "data").truthy))) ∧
    Value.truthy (Value.vStr "k") = true :=
  And.intro
    ((authAll_drops_falsy
      [("auth", [[("providerId", Value.vStr "anthropic"), ("data", Value.vStr "k")],
        [("providerId", Value.vStr "bad"), ("data", Value.vNull)]])]).1)
    ((authAll_drops_falsy
      [("auth", [[("providerId", Value.vStr "anthropic"), ("data", Value.vStr "k")],
        [("providerId", Value.vStr "bad"), ("data", Value.vNull)]])]).2.2.1
      "anthropic" (Value.vStr "k") rfl)

namespace MongoStorage

/-- Once the promise is memoized, further `init()` calls change nothing and
all return that same promise. -/
theorem runInits_stable (n : Nat) (st : InitState) (p : Nat)
    (hp : st.initPromise = some p) :
    runInits n st = (st, List.replicate n p) := by
  induction n with
  | zero => rfl
  | succ m ih =>
    unfold runInits
    unfold init
    rw [hp]
    simp only []
    rw [ih]
    rfl

end MongoStorage

/-- C9: backend initialization is idempotent under concurrency: every caller
of `init()` — however many race on the first storage operation — gets the
one memoized in-flight promise, and exactly one connection attempt
(`doInit`) is ever started. -/
theorem init_single_connect (n : Nat) (h : 1 ≤ n) :
    (MongoStorage.runInits n MongoStorage.startState).1.connectAttempts = 1 ∧
    ∀ p ∈ (MongoStorage.runInits n MongoStorage.startState).2, p = 0 := by
  cases n with
  | zero => exact absurd h (by decide)
  | succ m =>
    have h1 : MongoStorage.runInits (m + 1) MongoStorage.startState =
        (MongoStorage.InitState.mk (some 0) 1, 0 :: List.replicate m 0) := by
      have h0 : MongoStorage.runInits (m + 1) MongoStorage.startState =
          ((MongoStorage.runInits m (MongoStorage.InitState.mk (some 0) 1)).1,
            0 :: (MongoStorage.runInits m (MongoStorage.InitState.mk (some 0) 1)).2) :=
        rfl
      rw [h0, MongoStorage.runInits_stable m (MongoStorage.InitState.mk (some 0) 1) 0 rfl]
    rw [h1]
    refine ⟨rfl, ?_⟩
    intro p hp
    rcases List.mem_cons.mp hp with h2 | h2
    · exact h2
    · exact List.eq_of_mem_replicate h2

/-- Witness for C9: three racing callers, one connection attempt. -/
theorem init_single_connect_witness :
    (MongoStorage.runInits 3 MongoStorage.startState).1.connectAttempts = 1 :=
  (init_single_connect 3 (by decide)).1

/-! ### `list` returns exactly the matching keys, deterministically sorted -/

namespace MongoStorage

theorem list_unfold (s : Store) (ty : String) (ids : List String) :
    list s ty ids =
      List.insertionSort keyLe
        ((List.insertionSort docIdLe
          (findAll (getColl s (collectionName ty))
            (if ids.length > 0 then buildQuery ty ids else []))).map
          (extractKey ty)) := rfl

theorem list_perm (s : Store) (ty : String) (ids : List String) :
    (list s ty ids).Perm
      ((findAll (getColl s (collectionName ty))
        (if ids.length > 0 then buildQuery ty ids else [])).map (extractKey ty)) := by
  rw [list_unfold]
  refine (List.perm_insertionSort keyLe _).trans ?_
  exact (List.perm_insertionSort docIdLe _).map (extractKey ty)

theorem extractKey_head (ty : String) (d : Doc) :
    (extractKey ty d).head? = some (Value.vStr ty) := by
  unfold extractKey
  split <;> rfl

theorem matched_field (d : Doc) (f x : String)
    (hd : docMatches d [(f, Value.vStr x)] = true) :
    assocGet d f = some (Value.vStr x) := by
  have hfm : fieldMatches (assocGet d f) (Value.vStr x) = true := by
    simpa [docMatches] using hd
  cases hg : assocGet d f with
  | none => rw [hg] at hfm; simp [fieldMatches, Value.beq] at hfm
  | some v =>
    rw [hg] at hfm
    simp only [fieldMatches] at hfm
    rw [beq_vStr_sound v x hfm]

end MongoStorage

/-- C7: `list` returns exactly the keys (via `extractKey`) of the stored
documents matching the prefix query, deterministically sorted — sorted with
respect to the JavaScript comparator independently of iteration order;
every returned key has the entity type as its first segment, and for
`list(["session", p])` every returned key has `p` as its second segment
(only sessions under parent `p`). -/
theorem list_sorted_and_exact (s : Store) (ty : String) (ids : List String)
    (p : String) :
    List.Sorted MongoStorage.keyLe (MongoStorage.list s ty ids) ∧
    (MongoStorage.list s ty ids).Perm
      ((findAll (getColl s (MongoStorage.collectionName ty))
        (if ids.length > 0 then MongoStorage.buildQuery ty ids else [])).map
        (MongoStorage.extractKey ty)) ∧
    (∀ k ∈ MongoStorage.list s ty ids, k.head? = some (Value.vStr ty)) ∧
    (∀ k ∈ MongoStorage.list s "session" [p], k.get? 1 = some (Value.vStr p)) := by
  refine ⟨?_, MongoStorage.list_perm s ty ids, ?_, ?_⟩
  · rw [MongoStorage.list_unfold]
    exact List.sorted_insertionSort MongoStorage.keyLe _
  · intro k hk
    have hk2 := (MongoStorage.list_perm s ty ids).mem_iff.mp hk
    obtain ⟨d, hd, he⟩ := List.mem_map.mp hk2
    subst he
    exact MongoStorage.extractKey_head ty d
  · intro k hk
    have hk2 := (MongoStorage.list_perm s "session" [p]).mem_iff.mp hk
    obtain ⟨d, hd, he⟩ := List.mem_map.mp hk2
    subst he
    have hq : (if ([p] : List String).length > 0
        then MongoStorage.buildQuery "session" [p] else []) =
        [("projectId", Value.vStr p)] := rfl
    rw [hq] at hd
    have hmem := List.mem_filter.mp hd
    have hpid := MongoStorage.matched_field d "projectId" p hmem.2
    have hext : MongoStorage.extractKey "session" d =
        [Value.vStr "session", jsGet d "projectId", jsGet d "sessionId"] := rfl
    rw [hext]
    simp [jsGet, hpid]

/-- Witness for C7: a one-document session store; the single recovered key
sits under parent `p1`. -/
theorem list_sorted_and_exact_witness :
    List.Sorted MongoStorage.keyLe (MongoStorage.list
      [("sessions", [[("_id", Value.vStr "p1/s1"), ("projectId", Value.vStr "p1"),
        ("sessionId", Value.vStr "s1"), ("data", Value.vStr "x"),
        ("version", Value.vNum 1)]])] "session" []) ∧
    ([Value.vStr "session", Value.vStr "p1", Value.vStr "s1"] : List Value).get? 1 =
      some (Value.vStr "p1") :=
  And.intro
    ((list_sorted_and_exact
      [("sessions", [[("_id", Value.vStr "p1/s1"), ("projectId", Value.vStr "p1"),
        ("sessionId", Value.vStr "s1"), ("data", Value.vStr "x"),
        ("version", Value.vNum 1)]])] "session" [] "p1").1)
    ((list_sorted_and_exact
      [("sessions", [[("_id", Value.vStr "p1/s1"), ("projectId", Value.vStr "p1"),
        ("sessionId", Value.vStr "s1"), ("data", Value.vStr "x"),
        ("version", Value.vNum 1)]])] "session" [] "p1").2.2.2
      [Value.vStr "session", Value.vStr "p1", Value.vStr "s1"]
      (by
        rw [show MongoStorage.list
          [("sessions", [[("_id", Value.vStr "p1/s1"), ("projectId", Value.vStr "p1"),
            ("sessionId", Value.vStr "s1"), ("data", Value.vStr "x"),
            ("version", Value.vNum 1)]])] "session" ["p1"] =
          [[Value.vStr "session", Value.vStr "p1", Value.vStr "s1"]] from rfl]
        exact List.mem_singleton.mpr rfl))

/-! ### The filesystem import is gated by the sentinel marker -/

namespace MongoStorage

/-- The body of the import between the marker check and the marker write:
storage directories, auth map, MCP-auth map, first parseable config. -/
def importStage (fsd : FsData) (now : Nat) (s : Store) : Store :=
  let s1 := COLLECTION_MAP.foldl
    (fun acc p => importDirectory acc p.1 (fsd.files p.1) now) s
  let s2 := match fsd.authJson with
    | none => s1
    | some entries => entries.foldl (fun acc e => authSet acc e.1 e.2 now) s1
  let s3 := match fsd.mcpAuthJson with
    | none => s2
    | some entries => entries.foldl (fun acc e => mcpAuthSet acc e.1 e.2 now) s2
  match fsd.configCandidates.findSome? id with
  | none => s3
  | some c => configSet s3 c now

theorem importFromFilesystem_unfold (fsd : FsData) (now : Nat) (s : Store) :
    importFromFilesystem fsd now s =
      match findOne (getColl s "_meta") markerQuery with
      | some _ => s
      | none =>
        setColl (importStage fsd now s) "_meta"
          (updateOne (getColl (importStage fsd now s) "_meta") markerQuery
            [("_id", Value.vStr "filesystem_imported"), ("importedAt", Value.vDate now)]
            [] [] true).1 := rfl

theorem importFromFilesystem_of_marker (fsd : FsData) (now : Nat) (s : Store) (d : Doc)
    (h : findOne (getColl s "_meta") markerQuery = some d) :
    importFromFilesystem fsd now s = s := by
  rw [importFromFilesystem_unfold, h]

theorem getColl_write_ne_meta (s : Store) (ty : String) (ids : List String)
    (content : Value) (now : Nat) (h : collectionName ty ≠ "_meta") :
    getColl (write s ty ids content now) "_meta" = getColl s "_meta" := by
  rw [write_unfold]
  exact getColl_setColl_ne _ _ _ _ h

theorem getColl_importDirectory_meta (ty : String) (now : Nat)
    (h : collectionName ty ≠ "_meta") :
    ∀ (files : List (List String × Option Value)) (s : Store),
      getColl (importDirectory s ty files now) "_meta" = getColl s "_meta" := by
  intro files
  induction files with
  | nil => intro s; rfl
  | cons f rest ih =>
    intro s
    have hstep : importDirectory s ty (f :: rest) now =
        importDirectory
          (match f.2 with
           | none => s
           | some content => write s ty f.1 content now) ty rest now := rfl
    rw [hstep, ih]
    cases hf2 : f.2 with
    | none => rfl
    | some content => exact getColl_write_ne_meta s ty f.1 content now h

theorem getColl_mapfold_meta (fsd : FsData) (now : Nat) :
    ∀ (l : List (String × String)) (s : Store),
      (∀ q ∈ l, collectionName q.1 ≠ "_meta") →
      getColl (l.foldl (fun acc p => importDirectory acc p.1 (fsd.files p.1) now) s)
        "_meta" = getColl s "_meta" := by
  intro l
  induction l with
  | nil => intro s _; rfl
  | cons q rest ih =>
    intro s hl
    have hq : collectionName q.1 ≠ "_meta" := hl q (by simp)
    have hrest : ∀ q2 ∈ rest, collectionName q2.1 ≠ "_meta" :=
      fun q2 h2 => hl q2 (by simp [h2])
    have hstep : (q :: rest).foldl
        (fun acc p => importDirectory acc p.1 (fsd.files p.1) now) s =
        rest.foldl (fun acc p => importDirectory acc p.1 (fsd.files p.1) now)
          (importDirectory s q.1 (fsd.files q.1) now) := rfl
    rw [hstep, ih _ hrest, getColl_importDirectory_meta q.1 now hq]

theorem getColl_authfold_meta (now : Nat) :
    ∀ (entries : List (String × Value)) (s : Store),
      getColl (entries.foldl (fun acc e => authSet acc e.1 e.2 now) s) "_meta" =
        getColl s "_meta" := by
  intro entries
  induction entries with
  | nil => intro s; rfl
  | cons e rest ih =>
    intro s
    have hstep : (e :: rest).foldl (fun acc x => authSet acc x.1 x.2 now) s =
        rest.foldl (fun acc x => authSet acc x.1 x.2 now) (authSet s e.1 e.2 now) := rfl
    rw [hstep, ih]
    show getColl (setColl s "auth" _) "_meta" = getColl s "_meta"
    exact getColl_setColl_ne _ _ _ _ (by decide)

theorem getColl_mcpfold_meta (now : Nat) :
    ∀ (entries : List (String × Value)) (s : Store),
      getColl (entries.foldl (fun acc e => mcpAuthSet acc e.1 e.2 now) s) "_meta" =
        getColl s "_meta" := by
  intro entries
  induction entries with
  | nil => intro s; rfl
  | cons e rest ih =>
    intro s
    have hstep : (e :: rest).foldl (fun acc x => mcpAuthSet acc x.1 x.2 now) s =
        rest.foldl (fun acc x => mcpAuthSet acc x.1 x.2 now)
          (mcpAuthSet s e.1 e.2 now) := rfl
    rw [hstep, ih]
    show getColl (setColl s "mcp_auth" _) "_meta" = getColl s "_meta"
    exact getColl_setColl_ne _ _ _ _ (by decide)

theorem getColl_importStage_meta (fsd : FsData) (now : Nat) (s : Store) :
    getColl (importStage fsd now s) "_meta" = getColl s "_meta" := by
  unfold importStage
  have h1 := getColl_mapfold_meta fsd now COLLECTION_MAP s (by decide)
  cases ha : fsd.authJson with
  | none =>
    cases hm : fsd.mcpAuthJson with
    | none =>
      cases hc : fsd.configCandidates.findSome? id with
      | none => simpa [ha, hm, hc] using h1
      | some c =>
        simp only [ha, hm, hc]
        show getColl (setColl _ "config" _) "_meta" = getColl s "_meta"
        rw [getColl_setColl_ne _ _ _ _ (by decide)]
        exact h1
    | some entries =>
      cases hc : fsd.configCandidates.findSome? id with
      | none =>
        simp only [ha, hm, hc]
        rw [getColl_mcpfold_meta now entries _]
        exact h1
      | some c =>
        simp only [ha, hm, hc]
        show getColl (setColl _ "config" _) "_meta" = getColl s "_meta"
        rw [getColl_setColl_ne _ _ _ _ (by decide),
          getColl_mcpfold_meta now entries _]
        exact h1
  | some entries =>
    cases hm : fsd.mcpAuthJson with
    | none =>
      cases hc : fsd.configCandidates.findSome? id with
      | none =>
        simp only [ha, hm, hc]
        rw [getColl_authfold_meta now entries _]
        exact h1
      | some c =>
        simp only [ha, hm, hc]
        show getColl (setColl _ "config" _) "_meta" = getColl s "_meta"
        rw [getColl_setColl_ne _ _ _ _ (by decide),
          getColl_authfold_meta now entries _]
        exact h1
    | some entries2 =>
      cases hc : fsd.configCandidates.findSome? id with
      | none =>
        simp only [ha, hm, hc]
        rw [getColl_mcpfold_meta now entries2 _, getColl_authfold_meta now entries _]
        exact h1
      | some c =>
        simp only [ha, hm, hc]
        show getColl (setColl _ "config" _) "_meta" = getColl s "_meta"
        rw [getColl_setColl_ne _ _ _ _ (by decide),
          getColl_mcpfold_meta now entries2 _, getColl_authfold_meta now entries _]
        exact h1

/-- The document the marker upsert inserts. -/
theorem marker_upsert_doc (now : Nat) :
    buildUpsertDoc markerQuery
      [("_id", Value.vStr "filesystem_imported"), ("importedAt", Value.vDate now)]
      [] [] =
      [("_id", Value.vStr "filesystem_imported"), ("importedAt", Value.vDate now)] := rfl

end MongoStorage

/-- C8: the filesystem import is idempotent and gated by the sentinel
marker: when the marker document exists the import returns immediately with
the store untouched; after a completed import the marker exists; hence a
second run — with any filesystem contents and clock — is a no-op, producing
no duplicate records and not overwriting the marker. -/
theorem import_idempotent (fsd fsd2 : MongoStorage.FsData) (now now2 : Nat)
    (s : Store) :
    (∀ d, findOne (getColl s "_meta") MongoStorage.markerQuery = some d →
      MongoStorage.importFromFilesystem fsd now s = s) ∧
    (∃ d, findOne (getColl (MongoStorage.importFromFilesystem fsd now s) "_meta")
      MongoStorage.markerQuery = some d) ∧
    MongoStorage.importFromFilesystem fsd2 now2
        (MongoStorage.importFromFilesystem fsd now s) =
      MongoStorage.importFromFilesystem fsd now s := by
  have h2 : ∃ d, findOne (getColl (MongoStorage.importFromFilesystem fsd now s)
      "_meta") MongoStorage.markerQuery = some d := by
    cases hm : findOne (getColl s "_meta") MongoStorage.markerQuery with
    | some d =>
      rw [MongoStorage.importFromFilesystem_of_marker fsd now s d hm]
      exact ⟨d, hm⟩
    | none =>
      rw [MongoStorage.importFromFilesystem_unfold, hm]
      rw [getColl_setColl_same]
      rw [MongoStorage.getColl_importStage_meta fsd now s]
      rw [updateOne_of_miss _ _ _ _ _ hm]
      rw [MongoStorage.marker_upsert_doc]
      refine ⟨[("_id", Value.vStr "filesystem_imported"),
        ("importedAt", Value.vDate now)], ?_⟩
      apply findOne_first (getColl s "_meta") _ [] MongoStorage.markerQuery
        ((findOne_eq_none_iff _ _).mp hm)
      apply MongoStorage.docMatches_single
      rfl
  refine ⟨fun d hd => MongoStorage.importFromFilesystem_of_marker fsd now s d hd,
    h2, ?_⟩
  obtain ⟨d, hd⟩ := h2
  exact MongoStorage.importFromFilesystem_of_marker fsd2 now2 _ d hd

/-- Witness for C8: a store already holding the marker is returned
untouched, and importing into the empty store leaves the marker present. -/
theorem import_idempotent_witness :
    MongoStorage.importFromFilesystem
        (MongoStorage.FsData.mk (fun _ => []) none none []) 2
        [("_meta", [[("_id", Value.vStr "filesystem_imported")]])] =
      [("_meta", [[("_id", Value.vStr "filesystem_imported")]])] ∧
    ∃ d, findOne (getColl (MongoStorage.importFromFilesystem
        (MongoStorage.FsData.mk (fun _ => []) none none []) 2 []) "_meta")
      MongoStorage.markerQuery = some d :=
  And.intro
    ((import_idempotent (MongoStorage.FsData.mk (fun _ => []) none none [])
        (MongoStorage.FsData.mk (fun _ => []) none none []) 2 3
        [("_meta", [[("_id", Value.vStr "filesystem_imported")]])]).1
      [("_id", Value.vStr "filesystem_imported")] rfl)
    ((import_idempotent (MongoStorage.FsData.mk (fun _ => []) none none [])
        (MongoStorage.FsData.mk (fun _ => []) none none []) 2 3 []).2.1)
